import Mathlib

/-!
Verification of the paillier-bigint library core.

The JavaScript source is shallowly embedded as follows.

* JS arbitrary-precision `bigint` values are `Int`; the JS truncating
  operators `%` and `/` on bigints are `Int.tmod` and `Int.tdiv`.
* Functions that can produce `NaN` (or throw on `NaN`-contaminated
  arithmetic) are embedded with an `Option`/`Except` result, `none`
  standing for the failing computation.
* The `while`/`do-while` loops of `bigint-crypto-utils` (`eGcd`, `modPow`,
  the binary `gcd`) are embedded structurally with an explicit fuel
  argument; each wrapper supplies fuel that provably dominates the number
  of iterations of the JS loop, so on every input the JS loop reaches the
  embedded value.
* Random drawing (`randBetween`) is embedded by its reachable-value
  predicate: `randBetween(max, min = 1)` can return exactly the integers
  in `[min, max]`.
-/

namespace bcu

/-- Embedding of `abs(a)` from bigint-crypto-utils. -/
def abs (a : Int) : Int := if 0 ≤ a then a else -a

/-- Embedding of `toZn(a, n)`: JS returns `NaN` when `n <= 0` (embedded as
`none`), otherwise the canonical representative of `a` modulo `n`,
computed from the truncating remainder as in the source. -/
def toZn (a n : Int) : Option Int :=
  if n ≤ 0 then none
  else some (if Int.tmod a n < 0 then Int.tmod a n + n else Int.tmod a n)

/-- The iterative loop of `eGcd`.  State `(a, b, x, y, u, v)` as in the
source; `a` and `b` stay nonnegative so they are carried as `Nat`.
The first argument is fuel dominating the iteration count. -/
def eGcdLoop : Nat → Nat → Nat → Int → Int → Int → Int → Int × Int × Int
  | 0, _, b, x, y, _, _ => (b, x, y)
  | fuel + 1, a, b, x, y, u, v =>
    if a = 0 then (b, x, y)
    else
      let q : Nat := b / a
      let r : Nat := b % a
      eGcdLoop fuel r a u v (x - u * q) (y - v * q)

/-- Embedding of `eGcd(a, b)`: `NaN` (here `none`) unless both arguments
are positive; otherwise the triple `(g, x, y)` with `a*x + b*y = g`. -/
def eGcd (a b : Int) : Option (Int × Int × Int) :=
  if a ≤ 0 ∨ b ≤ 0 then none
  else some (eGcdLoop (a.toNat + 1) a.toNat b.toNat 0 1 1 0)

/-- Embedding of `modInv(a, n)`: `NaN` (`none`) when `a == 0` or `n <= 0`
or the inverse does not exist, else `toZn(egcd.x, n)`.  (When
`toZn(a,n) = 0` the source calls `eGcd(0, n)` which yields `NaN`, and the
`egcd.b !== 1n` test then also leads to `NaN`; both paths are `none`.) -/
def modInv (a n : Int) : Option Int :=
  if a = 0 ∨ n ≤ 0 then none
  else
    match toZn a n with
    | none => none
    | some az =>
      match eGcd az n with
      | none => none
      | some (g, x, _) => if g ≠ 1 then none else toZn x n

/-- The right-to-left square-and-multiply loop of `modPow`, with fuel.
State: current exponent `b` (a `Nat`: the source only runs the loop for
nonnegative exponents), current square `x`, accumulated `result`. -/
def modPowLoop : Nat → Int → Nat → Int → Int → Int
  | 0, _, _, _, result => result
  | fuel + 1, n, b, x, result =>
    if b = 0 then result
    else
      modPowLoop fuel n (b / 2) (Int.tmod (x * x) n)
        (if b % 2 = 1 then Int.tmod (result * x) n else result)

/-- Embedding of `modPow(a, b, n)`.  `NaN` (`none`) when `n = 0`.  For
`n < 0` the source computes `toZn(a, n) = NaN`; the subsequent arithmetic
returns `1n` when the loop body never runs (`b = 0`) and fails otherwise
(mixing `NaN` with bigints throws), which is embedded accordingly.  For
`b < 0` the source returns `modInv(modPow(a, abs(b), n), n)`. -/
def modPow (a b n : Int) : Option Int :=
  if n = 0 then none
  else
    match toZn a n with
    | none => if b = 0 then some 1 else none
    | some a0 =>
      if b < 0 then modInv (modPowLoop (b.natAbs + 1) n b.natAbs a0 1) n
      else some (modPowLoop (b.natAbs + 1) n b.natAbs a0 1)

/-- The `while (!(a & 1)) a >>= 1` loop of the binary gcd (strip factors
of two), with fuel.  The source loop diverges on `0`; its callers only
reach it with positive arguments, where the supplied fuel suffices. -/
def oddPart : Nat → Nat → Nat
  | 0, a => a
  | fuel + 1, a => if a % 2 = 0 then oddPart fuel (a / 2) else a

/-- The `while (!((a | b) & 1))` loop of the binary gcd: divide both
numbers by two while both are even, counting the shift. -/
def stripTwosPair : Nat → Nat → Nat → Nat × Nat × Nat
  | 0, a, b => (a, b, 0)
  | fuel + 1, a, b =>
    if a % 2 = 0 ∧ b % 2 = 0 then
      let r := stripTwosPair fuel (a / 2) (b / 2)
      (r.1, r.2.1, r.2.2 + 1)
    else (a, b, 0)

/-- The `do { ... } while (b)` loop of the binary gcd: strip `b` to odd,
swap so that `a <= b`, subtract, repeat while the new `b` is nonzero. -/
def gcdOddLoop : Nat → Nat → Nat → Nat
  | 0, a, _ => a
  | fuel + 1, a, b =>
    let b1 := oddPart b b
    let a2 := if b1 < a then b1 else a
    let b2 := if b1 < a then a else b1
    let b3 := b2 - a2
    if b3 = 0 then a2 else gcdOddLoop fuel a2 b3

/-- Embedding of the iterative binary `gcd(a, b)` of bigint-crypto-utils:
absolute values, zero short-circuits, common power-of-two stripping, odd
subtraction loop, then rescale by the common shift. -/
def gcd (a b : Int) : Int :=
  let a' := a.natAbs
  let b' := b.natAbs
  if a' = 0 then (b' : Int)
  else if b' = 0 then (a' : Int)
  else
    let s := stripTwosPair (a' + b') a' b'
    let aOdd := oddPart s.1 s.1
    ((gcdOddLoop (aOdd + s.2.1 + 1) aOdd s.2.1) * 2 ^ s.2.2 : Nat)

/-- Embedding of `lcm(a, b) = abs(a*b) / gcd(a, b)` with `lcm(0,0) = 0`. -/
def lcm (a b : Int) : Int :=
  if a = 0 ∧ b = 0 then 0
  else Int.tdiv (bcu.abs (a * b)) (bcu.gcd a b)

end bcu

/-- Embedding of `L(a, n) = (a - 1n) / n` (truncating bigint division). -/
def L (a n : Int) : Int := Int.tdiv (a - 1) n

/-- Paillier public key: the modulus `n` and the generator `g`. -/
structure PublicKey where
  n : Int
  g : Int
deriving DecidableEq

/-- The cached square `this._n2 = this.n ** 2n` of the public modulus. -/
def PublicKey.n2 (pk : PublicKey) : Int := pk.n ^ 2

/-- Embedding of `PublicKey.encrypt(m, r)` with the random factor `r`
supplied explicitly: `(g^m mod n²) · (r^n mod n²) mod n²`. -/
def PublicKey.encrypt (pk : PublicKey) (m r : Int) : Option Int :=
  match bcu.modPow pk.g m pk.n2, bcu.modPow r pk.n pk.n2 with
  | some gm, some rn => some (Int.tmod (gm * rn) pk.n2)
  | _, _ => none

/-- The values the default-`r` loop of `encrypt` can draw and accept:
`r = randBetween(n)` lies in `[1, n]`, and the loop repeats until
`gcd(r, n) = 1`. -/
def encryptDraw (pk : PublicKey) (r : Int) : Prop :=
  (1 ≤ r ∧ r ≤ pk.n) ∧ bcu.gcd r pk.n = 1

instance (pk : PublicKey) (r : Int) : Decidable (encryptDraw pk r) := by
  unfold encryptDraw; infer_instance

/-- Embedding of `PublicKey.addition(...ciphertexts)`:
`ciphertexts.reduce((sum, next) => sum * next % n2, 1n)`. -/
def PublicKey.addition (pk : PublicKey) (ciphertexts : List Int) : Int :=
  ciphertexts.foldl (fun sum next => Int.tmod (sum * next) pk.n2) 1

/-- Embedding of `PublicKey.multiply(c, k) = modPow(c, k, n2)`. -/
def PublicKey.multiply (pk : PublicKey) (c k : Int) : Option Int :=
  bcu.modPow c k pk.n2

/-- Paillier private key.  `p` and `q` are optional, as in the source
(`this._p = p || null`). -/
structure PrivateKey where
  lambda : Int
  mu : Int
  publicKey : PublicKey
  p : Option Int
  q : Option Int
deriving DecidableEq

/-- The `PrivateKey` constructor: `this._p = p || null` maps both a
missing `p` and the falsy bigint `0n` to `null`. -/
def mkPrivateKey (lambda mu : Int) (publicKey : PublicKey)
    (p q : Option Int) : PrivateKey :=
  { lambda := lambda, mu := mu, publicKey := publicKey,
    p := match p with | some v => if v = 0 then none else some v | none => none,
    q := match q with | some v => if v = 0 then none else some v | none => none }

/-- The `n` getter of `PrivateKey` returns `publicKey.n`. -/
def PrivateKey.n (sk : PrivateKey) : Int := sk.publicKey.n

/-- Embedding of `PrivateKey.decrypt(c) =
(L(modPow(c, lambda, n2), n) * mu) % n`. -/
def PrivateKey.decrypt (sk : PrivateKey) (c : Int) : Option Int :=
  (bcu.modPow c sk.lambda sk.publicKey.n2).map fun x =>
    Int.tmod (L x sk.publicKey.n * sk.mu) sk.publicKey.n

/-- Outcomes of `getRandomFactor`.  `invalidStateRange` is the deliberate
`RangeError` thrown when `g != n + 1`; `typeErrorNullArith` is the
`TypeError` raised by `(this._p - 1n)` when `p` or `q` is `null`;
`arithError` stands for `NaN`-contaminated arithmetic on the remaining
paths (e.g. `modInv` returning `NaN`). -/
inductive RFError where
  | invalidStateRange
  | typeErrorNullArith
  | arithError
deriving DecidableEq

/-- Embedding of `PrivateKey.getRandomFactor(c)`, following the source
order: the `g != n + 1` guard throws first; then `m = decrypt(c)` is
computed; then `phi = (p - 1)(q - 1)` throws a `TypeError` when `p` or
`q` is `null`; then `c1 = c * (1 - m * n) % n2` and the final
`modPow(c1, n^(-1) mod phi, n)`. -/
def PrivateKey.getRandomFactor (sk : PrivateKey) (c : Int) : Except RFError Int :=
  if sk.publicKey.g ≠ sk.n + 1 then .error .invalidStateRange
  else
    match sk.decrypt c with
    | none => .error .arithError
    | some m =>
      match sk.p, sk.q with
      | some pv, some qv =>
        let phi := (pv - 1) * (qv - 1)
        match bcu.modInv sk.n phi with
        | none => .error .arithError
        | some nInvModPhi =>
          let c1 := Int.tmod (c * (1 - m * sk.n)) sk.publicKey.n2
          match bcu.modPow c1 nInvModPhi sk.n with
          | none => .error .arithError
          | some r => .ok r
      | _, _ => .error .typeErrorNullArith

/-- Embedding of `keysFromPrimesSimple(p, q)`: `g = n + 1`,
`lambda = (p-1)(q-1)`, `mu = modInv(lambda, n)`.  A `NaN` `mu`
(no inverse) poisons every later use of the key and is embedded as a
failed construction. -/
def keysFromPrimesSimple (p q : Int) : Option PrivateKey :=
  let n := p * q
  let g := n + 1
  let lambda := (p - 1) * (q - 1)
  (bcu.modInv lambda n).map fun mu =>
    mkPrivateKey lambda mu { n := n, g := g } (some p) (some q)

/-- Embedding of `keysFromPrimes(p, q, g)` on the path where the caller
supplies a (truthy, i.e. nonzero) generator `g`; with `g` absent or `0n`
the source falls back to the randomized `getGenerator`, which is not
needed by the claims.  `lambda = lcm(p-1, q-1)`,
`mu = modInv(L(modPow(g, lambda, n2), n), n)`. -/
def keysFromPrimes (p q g : Int) : Option PrivateKey :=
  let n := p * q
  let n2 := n ^ 2
  let lambda := bcu.lcm (p - 1) (q - 1)
  (bcu.modPow g lambda n2).bind fun gl =>
    (bcu.modInv (L gl n) n).map fun mu =>
      mkPrivateKey lambda mu { n := n, g := g } (some p) (some q)

/-- The values `generateDualG(n1, n2)` can return: `randBetween(n1)`
draws `r` in `[1, n1]`, and the `do`-loop exits (returning `r`) as soon
as its condition `gcd(r, n1) !== 1n && gcd(r, n2) !== 1n` is false. -/
def generateDualGReturns (n1 n2 r : Int) : Prop :=
  (1 ≤ r ∧ r ≤ n1) ∧ ¬(bcu.gcd r n1 ≠ 1 ∧ bcu.gcd r n2 ≠ 1)

instance (n1 n2 r : Int) : Decidable (generateDualGReturns n1 n2 r) := by
  unfold generateDualGReturns; infer_instance

/-- A valid Paillier key pair built over the distinct primes `p` and `q`.
These are exactly the facts guaranteed by the key-construction routines
(both the simple `g = n + 1` variant and the general variant with a
caller-supplied generator coprime to `n`); see
`keysFromPrimesSimple_valid` and `keysFromPrimes_valid` below. -/
structure ValidKeyPair (p q : ℕ) (sk : PrivateKey) : Prop where
  hp : p.Prime
  hq : q.Prime
  hpq : p ≠ q
  hn : sk.publicKey.n = (p : Int) * q
  hg : 0 ≤ sk.publicKey.g
  hgco : Int.gcd sk.publicKey.g sk.publicKey.n = 1
  hlam : 0 < sk.lambda
  hlp : ((p : Int) - 1) ∣ sk.lambda
  hlq : ((q : Int) - 1) ∣ sk.lambda
  hmu : 0 ≤ sk.mu
  hmus : (bcu.modPow sk.publicKey.g sk.lambda sk.publicKey.n2).map
      (fun glv => (L glv sk.publicKey.n * sk.mu) % sk.publicKey.n)
      = some (1 % sk.publicKey.n)

/-- The value `L(modPow(g, lambda, n²), n)` whose inverse modulo `n` a
valid `mu` is. -/
def gLval (sk : PrivateKey) : Int :=
  L ((sk.publicKey.g ^ sk.lambda.toNat) % sk.publicKey.n2) sk.publicKey.n

/-- The key pair that `keysFromPrimesSimple(11, 13)` produces:
`n = 143`, `g = 144`, `lambda = 120`, `mu = 120⁻¹ mod 143 = 87`. -/
def sk11 : PrivateKey :=
  { lambda := 120, mu := 87, publicKey := { n := 143, g := 144 },
    p := some 11, q := some 13 }

deriving instance DecidableEq for Except

/-- A key with a generator different from `n + 1`. -/
def skWrongG : PrivateKey :=
  { lambda := 120, mu := 87, publicKey := { n := 143, g := 5 },
    p := some 11, q := some 13 }

/-- A simple-variant-shaped key whose `p` is missing (`null`). -/
def sk11NoP : PrivateKey :=
  { lambda := 120, mu := 87, publicKey := { n := 143, g := 144 },
    p := none, q := some 13 }

/-- The first 250 odd primes used by the trial-division prefilter of
`_isProbablyPrime`. -/
def firstPrimes : List Nat :=
  [3, 5, 7, 11, 13, 17, 19, 23, 29, 31, 37, 41, 43, 47, 53, 59, 61, 67,
    71, 73, 79, 83, 89, 97, 101, 103, 107, 109, 113, 127, 131, 137, 139,
    149, 151, 157, 163, 167, 173, 179, 181, 191, 193, 197, 199, 211, 223,
    227, 229, 233, 239, 241, 251, 257, 263, 269, 271, 277, 281, 283, 293,
    307, 311, 313, 317, 331, 337, 347, 349, 353, 359, 367, 373, 379, 383,
    389, 397, 401, 409, 419, 421, 431, 433, 439, 443, 449, 457, 461, 463,
    467, 479, 487, 491, 499, 503, 509, 521, 523, 541, 547, 557, 563, 569,
    571, 577, 587, 593, 599, 601, 607, 613, 617, 619, 631, 641, 643, 647,
    653, 659, 661, 673, 677, 683, 691, 701, 709, 719, 727, 733, 739, 743,
    751, 757, 761, 769, 773, 787, 797, 809, 811, 821, 823, 827, 829, 839,
    853, 857, 859, 863, 877, 881, 883, 887, 907, 911, 919, 929, 937, 941,
    947, 953, 967, 971, 977, 983, 991, 997, 1009, 1013, 1019, 1021, 1031,
    1033, 1039, 1049, 1051, 1061, 1063, 1069, 1087, 1091, 1093, 1097,
    1103, 1109, 1117, 1123, 1129, 1151, 1153, 1163, 1171, 1181, 1187,
    1193, 1201, 1213, 1217, 1223, 1229, 1231, 1237, 1249, 1259, 1277,
    1279, 1283, 1289, 1291, 1297, 1301, 1303, 1307, 1319, 1321, 1327,
    1361, 1367, 1373, 1381, 1399, 1409, 1423, 1427, 1429, 1433, 1439,
    1447, 1451, 1453, 1459, 1471, 1481, 1483, 1487, 1489, 1493, 1499,
    1511, 1523, 1531, 1543, 1549, 1553, 1559, 1567, 1571, 1579, 1583,
    1597]

/-- The trial-division loop of `_isProbablyPrime`: it runs while the
current prime is `<= w`, returning PRIME on equality, COMPOSITE on
divisibility, and falling through to Miller-Rabin (`none`) otherwise. -/
def prefilterLoop : List Nat → Int → Option Bool
  | [], _ => none
  | pp :: ps, w =>
    if (pp : Int) ≤ w then
      if w = (pp : Int) then some true
      else if Int.tmod w (pp : Int) = 0 then some false
      else prefilterLoop ps w
    else none

/-- The prefiltering stage of `_isProbablyPrime`: `2` is prime, even
values and `1` are composite, then trial division by `firstPrimes`;
`none` means control passes to the Miller-Rabin stage. -/
def isProbablyPrimePrefilter (w : Int) : Option Bool :=
  if w = 2 then some true
  else if Int.tmod w 2 = 0 ∨ w = 1 then some false
  else prefilterLoop firstPrimes w

/-! ### Correctness of the embedded bigint-crypto-utils primitives -/

namespace bcu

theorem neg_lt_tmod (a : Int) {b : Int} (hb : 0 < b) : -b < Int.tmod a b := by
  obtain ⟨n, rfl⟩ := Int.eq_succ_of_zero_lt hb
  cases a with
  | ofNat m =>
    have h0 : (0 : Int) ≤ Int.tmod (Int.ofNat m) (Nat.succ n : Nat) :=
      Int.tmod_nonneg _ (Int.ofNat_nonneg m)
    omega
  | negSucc m =>
    have h1 : Int.tmod (Int.negSucc m) ((Nat.succ n : Nat) : Int)
        = -((Nat.succ m % Nat.succ n : Nat) : Int) := rfl
    have h2 : Nat.succ m % Nat.succ n < Nat.succ n := Nat.mod_lt _ (Nat.succ_pos n)
    rw [h1]
    omega

theorem tmod_emod (a n : Int) : Int.tmod a n % n = a % n := by
  conv_rhs => rw [← Int.tdiv_add_tmod a n]
  rw [show n * a.tdiv n + Int.tmod a n = Int.tmod a n + n * a.tdiv n from
    Int.add_comm _ _]
  rw [Int.add_mul_emod_self_left]

theorem toZn_eq {n : Int} (hn : 0 < n) (a : Int) : toZn a n = some (a % n) := by
  unfold toZn
  rw [if_neg (not_le.mpr hn)]
  congr 1
  by_cases h : Int.tmod a n < 0
  · rw [if_pos h]
    have h1 : (Int.tmod a n + n) % n = a % n := by
      have := Int.add_mul_emod_self_left (Int.tmod a n) n 1
      rw [mul_one] at this
      rw [this, tmod_emod]
    have h2 : 0 ≤ Int.tmod a n + n := by
      have := neg_lt_tmod a hn
      omega
    have h3 : Int.tmod a n + n < n := by omega
    rw [← h1, Int.emod_eq_of_lt h2 h3]
  · rw [if_neg h]
    push_neg at h
    have h3 : Int.tmod a n < n := Int.tmod_lt_of_pos a hn
    rw [← tmod_emod a n, Int.emod_eq_of_lt h h3]

theorem modPowLoop_zero_exp (fuel : Nat) (n x r : Int) :
    modPowLoop fuel n 0 x r = r := by
  cases fuel <;> simp [modPowLoop]

theorem modPowLoop_eq {n : Int} (hn : 0 < n) :
    ∀ fuel b x r, 0 < b → b < fuel → 0 ≤ x → 0 ≤ r →
      modPowLoop fuel n b x r = (r * x ^ b) % n := by
  intro fuel
  induction fuel with
  | zero => intro b x r hb hfuel _ _; omega
  | succ fuel ih =>
    intro b x r hb hfuel hx hr
    simp only [modPowLoop]
    rw [if_neg (by omega : ¬b = 0)]
    by_cases hb1 : b / 2 = 0
    · obtain rfl : b = 1 := by omega
      norm_num
      rw [modPowLoop_zero_exp, Int.tmod_eq_emod (mul_nonneg hr hx) hn.le]
    · have hx' : (0 : Int) ≤ Int.tmod (x * x) n :=
        Int.tmod_nonneg _ (mul_nonneg hx hx)
      have hxx : Int.tmod (x * x) n = (x * x) % n :=
        Int.tmod_eq_emod (mul_nonneg hx hx) hn.le
      have hsplit : 2 * (b / 2) + b % 2 = b := Nat.div_add_mod b 2
      have hxmod : Int.ModEq n ((x * x) % n) (x * x) :=
        Int.emod_emod_of_dvd _ dvd_rfl
      by_cases hodd : b % 2 = 1
      · rw [if_pos hodd]
        have hr' : (0 : Int) ≤ Int.tmod (r * x) n :=
          Int.tmod_nonneg _ (mul_nonneg hr hx)
        rw [ih (b / 2) _ _ (by omega) (by omega) hx' hr', hxx,
          Int.tmod_eq_emod (mul_nonneg hr hx) hn.le]
        have hmod : Int.ModEq n ((r * x) % n * ((x * x) % n) ^ (b / 2))
            (r * x ^ b) := by
          have h5 : Int.ModEq n ((r * x) % n) (r * x) :=
            Int.emod_emod_of_dvd _ dvd_rfl
          have h6 := h5.mul (hxmod.pow (b / 2))
          have h7 : r * x * (x * x) ^ (b / 2) = r * x ^ b := by
            rw [show x * x = x ^ 2 by ring, ← pow_mul,
              show r * x * x ^ (2 * (b / 2)) = r * x ^ (2 * (b / 2) + 1) by ring,
              show 2 * (b / 2) + 1 = b by omega]
          rwa [h7] at h6
        exact hmod
      · rw [if_neg hodd]
        rw [ih (b / 2) _ _ (by omega) (by omega) hx' hr, hxx]
        have hmod : Int.ModEq n (r * ((x * x) % n) ^ (b / 2)) (r * x ^ b) := by
          have h6 := (Int.ModEq.refl r).mul (hxmod.pow (b / 2))
          have h7 : r * (x * x) ^ (b / 2) = r * x ^ b := by
            rw [show x * x = x ^ 2 by ring, ← pow_mul, show 2 * (b / 2) = b by omega]
          rwa [h7] at h6
        exact hmod

theorem modPow_eq {n b : Int} (hn : 0 < n) (hb : 0 ≤ b) (h1 : 1 < n ∨ 0 < b)
    (a : Int) : modPow a b n = some (a ^ b.toNat % n) := by
  unfold modPow
  rw [if_neg (by omega), toZn_eq hn a]
  simp only [if_neg (not_lt.mpr hb)]
  by_cases hb0 : b = 0
  · subst hb0
    rw [show (0 : Int).natAbs = 0 from rfl, modPowLoop_zero_exp]
    have h2 : (1 : Int) < n := by rcases h1 with h | h; exact h; omega
    rw [show (0 : Int).toNat = 0 from rfl, pow_zero,
      Int.emod_eq_of_lt (by omega) h2]
  · have hb' : 0 < b.natAbs := by omega
    rw [modPowLoop_eq hn _ _ _ _ hb' (by omega)
      (Int.emod_nonneg a (by omega)) (by omega)]
    rw [one_mul, show b.natAbs = b.toNat by omega]
    have h5 : Int.ModEq n (a % n) a := Int.emod_emod_of_dvd a dvd_rfl
    exact congrArg some (h5.pow b.toNat)

theorem modPow_neg_exp {n b : Int} (hn : n ≠ 0) (hb : b < 0) (a : Int) :
    modPow a b n = (modPow a (-b) n).bind fun v => modInv v n := by
  unfold modPow
  rw [if_neg hn, if_neg hn]
  unfold toZn
  by_cases hneg : n ≤ 0
  · rw [if_pos hneg]
    simp only [if_neg (by omega : ¬b = 0), if_neg (by omega : ¬-b = 0)]
    rfl
  · rw [if_neg hneg]
    simp only [if_pos hb, if_neg (by omega : ¬-b < 0)]
    rw [show (-b).natAbs = b.natAbs by omega]
    rfl

theorem modPow_n_zero (a b : Int) : modPow a b 0 = none := rfl

end bcu

namespace bcu

theorem gcd_modEq_left {a b n : Int} (h : Int.ModEq n a b) :
    Int.gcd a n = Int.gcd b n := by
  obtain ⟨k, hk⟩ := h.dvd
  have hb : b = a + n * k := by rw [← hk]; ring
  apply Nat.dvd_antisymm
  · have h1 : (↑(Int.gcd a n) : ℤ) ∣ b := by
      rw [hb]
      exact dvd_add Int.gcd_dvd_left (Int.gcd_dvd_right.mul_right k)
    exact_mod_cast Int.dvd_gcd h1 Int.gcd_dvd_right
  · have h1 : (↑(Int.gcd b n) : ℤ) ∣ a := by
      rw [show a = b + n * (-k) by rw [hb]; ring]
      exact dvd_add Int.gcd_dvd_left (Int.gcd_dvd_right.mul_right (-k))
    exact_mod_cast Int.dvd_gcd h1 Int.gcd_dvd_right

theorem gcd_emod_left (a n : Int) : Int.gcd (a % n) n = Int.gcd a n :=
  gcd_modEq_left (Int.emod_emod_of_dvd a dvd_rfl)

theorem eGcdLoop_spec :
    ∀ fuel (a b : Nat) (x y u v A B : Int), a < fuel →
      x * A + y * B = (b : Int) → u * A + v * B = (a : Int) →
      (eGcdLoop fuel a b x y u v).1 = (Nat.gcd a b : Int) ∧
      (eGcdLoop fuel a b x y u v).2.1 * A + (eGcdLoop fuel a b x y u v).2.2 * B
        = (Nat.gcd a b : Int) := by
  intro fuel
  induction fuel with
  | zero => intro a b x y u v A B hf; omega
  | succ fuel ih =>
    intro a b x y u v A B hf hxy huv
    by_cases ha : a = 0
    · subst ha
      simp only [eGcdLoop, if_pos rfl, Nat.gcd_zero_left]
      exact ⟨rfl, hxy⟩
    · have hapos : 0 < a := Nat.pos_of_ne_zero ha
      simp only [eGcdLoop, if_neg ha]
      generalize hq : b / a = q
      generalize hr : b % a = r
      have hmodlt : r < a := hr ▸ Nat.mod_lt _ hapos
      have h0 : a * q + r = b := by rw [← hq, ← hr]; exact Nat.div_add_mod b a
      have h1 : (a : Int) * (q : Int) + (r : Int) = (b : Int) := by exact_mod_cast h0
      have huv' : (x - u * (q : Int)) * A + (y - v * (q : Int)) * B = (r : Int) := by
        have hexp : (x - u * (q : Int)) * A + (y - v * (q : Int)) * B
            = (x * A + y * B) - (q : Int) * (u * A + v * B) := by ring
        rw [hexp, hxy, huv]
        linarith
      have hres := ih r a u v (x - u * (q : Int)) (y - v * (q : Int)) A B
        (by omega) huv huv'
      have hgr : Nat.gcd a b = Nat.gcd r a := by rw [← hr, Nat.gcd_rec a b]
      rw [hgr]
      exact hres

theorem eGcd_spec {a b : Int} (ha : 0 < a) (hb : 0 < b) :
    ∃ x y, eGcd a b = some ((Int.gcd a b : Int), x, y) ∧
      x * a + y * b = (Int.gcd a b : Int) := by
  have hguard : ¬(a ≤ 0 ∨ b ≤ 0) := by omega
  have hcast : ((a.toNat : Nat) : Int) = a := by omega
  have hcast2 : ((b.toNat : Nat) : Int) = b := by omega
  have hspec := eGcdLoop_spec (a.toNat + 1) a.toNat b.toNat 0 1 1 0 a b
    (by omega)
    (by rw [hcast2]; ring)
    (by rw [hcast]; ring)
  have hgcd : Nat.gcd a.toNat b.toNat = Int.gcd a b := by
    unfold Int.gcd
    congr 1 <;> omega
  refine ⟨(eGcdLoop (a.toNat + 1) a.toNat b.toNat 0 1 1 0).2.1,
    (eGcdLoop (a.toNat + 1) a.toNat b.toNat 0 1 1 0).2.2, ?_, ?_⟩
  · unfold eGcd
    rw [if_neg hguard]
    congr 1
    have h1 := hspec.1
    rw [hgcd] at h1
    exact Prod.ext h1 rfl
  · have h2 := hspec.2
    rw [hgcd] at h2
    exact h2

theorem bezout_inverse {a x y n : Int} (_hn : 0 < n)
    (hx : x * (a % n) + y * n = 1) : (a * (x % n)) % n = 1 % n := by
  have e1 : Int.ModEq n (a * (x % n)) (a * x) :=
    (Int.ModEq.refl a).mul (Int.emod_emod_of_dvd x dvd_rfl)
  have e3 : Int.ModEq n a (a % n) := (Int.emod_emod_of_dvd a dvd_rfl).symm
  have e4 : Int.ModEq n (a * x) ((a % n) * x) := e3.mul (Int.ModEq.refl x)
  have e5 : ((a % n) * x) % n = 1 % n := by
    have hval : (a % n) * x = 1 + n * (-y) := by linarith
    rw [hval, Int.add_mul_emod_self_left]
  exact (e1.trans e4).trans e5

theorem modInv_spec {a n v : Int} (h : modInv a n = some v) :
    0 < n ∧ Int.gcd a n = 1 ∧ 0 ≤ v ∧ v < n ∧ (a * v) % n = 1 % n := by
  unfold modInv at h
  by_cases hg : a = 0 ∨ n ≤ 0
  · rw [if_pos hg] at h; cases h
  rw [if_neg hg] at h
  push_neg at hg
  have hn : 0 < n := by omega
  rw [toZn_eq hn a] at h
  simp only at h
  have haz : (0 : Int) ≤ a % n := Int.emod_nonneg a (by omega)
  by_cases haz0 : a % n = 0
  · rw [haz0] at h
    have : eGcd 0 n = none := by unfold eGcd; rw [if_pos (Or.inl le_rfl)]
    rw [this] at h
    cases h
  · have hazpos : 0 < a % n := lt_of_le_of_ne haz (Ne.symm haz0)
    obtain ⟨x, y, heq, hbez⟩ := eGcd_spec hazpos hn
    rw [heq] at h
    simp only at h
    have hgcd1 : Int.gcd (a % n) n = 1 := by
      by_contra hne
      rw [if_pos (by exact_mod_cast hne)] at h
      cases h
    rw [if_neg (by rw [hgcd1]; exact fun hh => hh rfl)] at h
    rw [toZn_eq hn x] at h
    have hv : v = x % n := by injection h with h; omega
    subst hv
    rw [gcd_emod_left] at hgcd1
    refine ⟨hn, hgcd1, Int.emod_nonneg x (by omega), Int.emod_lt_of_pos x hn, ?_⟩
    rw [← gcd_emod_left] at hgcd1
    rw [hgcd1] at hbez
    exact bezout_inverse hn (by exact_mod_cast hbez)

theorem modInv_of_gcd_one {a n : Int} (hn : 1 < n) (hg : Int.gcd a n = 1) :
    ∃ v, modInv a n = some v ∧ 0 ≤ v ∧ v < n ∧ (a * v) % n = 1 % n := by
  have hn0 : 0 < n := by omega
  have ha0 : a ≠ 0 := by
    intro h0
    subst h0
    rw [Int.gcd_zero_left] at hg
    omega
  have haz0 : a % n ≠ 0 := by
    intro h0
    have hdvd : n ∣ a := Int.dvd_of_emod_eq_zero h0
    have h1 : n ∣ (↑(Int.gcd a n) : ℤ) := Int.dvd_gcd hdvd dvd_rfl
    rw [hg] at h1
    have := Int.le_of_dvd (by omega) h1
    omega
  have hazpos : 0 < a % n :=
    lt_of_le_of_ne (Int.emod_nonneg a (by omega)) (Ne.symm haz0)
  obtain ⟨x, y, heq, hbez⟩ := eGcd_spec hazpos hn0
  rw [gcd_emod_left, hg] at heq hbez
  refine ⟨x % n, ?_, Int.emod_nonneg x (by omega), Int.emod_lt_of_pos x hn0,
    bezout_inverse hn0 (by exact_mod_cast hbez)⟩
  unfold modInv
  rw [if_neg (by omega : ¬(a = 0 ∨ n ≤ 0)), toZn_eq hn0 a]
  simp only
  rw [heq]
  simp only
  rw [if_neg (by norm_num), toZn_eq hn0 x]

end bcu

namespace bcu

theorem oddPart_spec :
    ∀ fuel a, 0 < a → a ≤ fuel →
      ∃ s, a = 2 ^ s * oddPart fuel a ∧ oddPart fuel a % 2 = 1 := by
  intro fuel
  induction fuel with
  | zero => intro a ha hf; omega
  | succ fuel ih =>
    intro a ha hf
    by_cases he : a % 2 = 0
    · simp only [oddPart, if_pos he]
      have ha2 : 0 < a / 2 := by omega
      obtain ⟨s, hs, hodd⟩ := ih (a / 2) ha2 (by omega)
      refine ⟨s + 1, ?_, hodd⟩
      set X := oddPart fuel (a / 2) with hX
      calc a = 2 * (a / 2) := by omega
        _ = 2 * (2 ^ s * X) := by rw [hs]
        _ = 2 ^ (s + 1) * X := by ring
    · simp only [oddPart, if_neg he]
      exact ⟨0, by omega, by omega⟩

theorem oddPart_odd_eq : ∀ fuel a, a % 2 = 1 → oddPart fuel a = a := by
  intro fuel a h
  cases fuel with
  | zero => rfl
  | succ fuel => simp only [oddPart, if_neg (by omega : ¬a % 2 = 0)]

theorem gcd_oddPart_right {a : Nat} (ha : a % 2 = 1) :
    ∀ fuel b, 0 < b → b ≤ fuel →
      Nat.gcd a (oddPart fuel b) = Nat.gcd a b := by
  intro fuel b hb hf
  obtain ⟨s, hs, _⟩ := oddPart_spec fuel b hb hf
  conv_rhs => rw [hs]
  rw [Nat.Coprime.gcd_mul_left_cancel_right]
  exact Nat.Coprime.pow_left s (Nat.coprime_two_left.mpr (Nat.odd_iff.mpr ha))

theorem gcdOddLoop_spec :
    ∀ fuel a b, a % 2 = 1 → 0 < b → a + b ≤ fuel →
      gcdOddLoop fuel a b = Nat.gcd a b := by
  intro fuel
  induction fuel with
  | zero => intro a b ha hb hf; omega
  | succ fuel ih =>
    intro a b ha hb hf
    have hapos : 0 < a := by omega
    simp only [gcdOddLoop]
    obtain ⟨s, hs, hodd⟩ := oddPart_spec b b hb le_rfl
    have hb1pos : 0 < oddPart b b := by
      rcases Nat.eq_zero_or_pos (oddPart b b) with h | h
      · rw [h] at hodd; omega
      · exact h
    have hb1le : oddPart b b ≤ b := by
      conv_rhs => rw [hs]
      calc oddPart b b = 1 * oddPart b b := (one_mul _).symm
        _ ≤ 2 ^ s * oddPart b b :=
          Nat.mul_le_mul_right _ (Nat.one_le_two_pow)
    have hgb1 : Nat.gcd a (oddPart b b) = Nat.gcd a b :=
      gcd_oddPart_right ha b b hb le_rfl
    by_cases hlt : oddPart b b < a
    · -- swap: a2 = oddPart b b, b2 = a
      rw [if_pos hlt, if_pos hlt]
      by_cases h3 : a - oddPart b b = 0
      · rw [if_pos h3]
        have : a = oddPart b b := by omega
        rw [← hgb1, this, Nat.gcd_self]
      · rw [if_neg h3]
        have hrec := ih (oddPart b b) (a - oddPart b b) hodd (by omega) (by omega)
        rw [hrec, Nat.gcd_sub_self_right (by omega), Nat.gcd_comm, hgb1]
    · rw [if_neg hlt, if_neg hlt]
      by_cases h3 : oddPart b b - a = 0
      · rw [if_pos h3]
        have : a = oddPart b b := by omega
        rw [← hgb1, this, Nat.gcd_self]
      · rw [if_neg h3]
        have hrec := ih a (oddPart b b - a) ha (by omega) (by omega)
        rw [hrec, Nat.gcd_sub_self_right (by omega), hgb1]

theorem stripTwosPair_spec :
    ∀ fuel a b, 0 < a → 0 < b → a ≤ fuel →
      a = 2 ^ (stripTwosPair fuel a b).2.2 * (stripTwosPair fuel a b).1 ∧
      b = 2 ^ (stripTwosPair fuel a b).2.2 * (stripTwosPair fuel a b).2.1 ∧
      0 < (stripTwosPair fuel a b).1 ∧ 0 < (stripTwosPair fuel a b).2.1 ∧
      ¬((stripTwosPair fuel a b).1 % 2 = 0 ∧ (stripTwosPair fuel a b).2.1 % 2 = 0) := by
  intro fuel
  induction fuel with
  | zero => intro a b ha hb hf; omega
  | succ fuel ih =>
    intro a b ha hb hf
    by_cases he : a % 2 = 0 ∧ b % 2 = 0
    · simp only [stripTwosPair, if_pos he]
      obtain ⟨h1, h2, h3, h4, h5⟩ := ih (a / 2) (b / 2) (by omega) (by omega) (by omega)
      set t2 := stripTwosPair fuel (a / 2) (b / 2) with ht2
      refine ⟨?_, ?_, h3, h4, h5⟩
      · calc a = 2 * (a / 2) := by omega
          _ = 2 * (2 ^ t2.2.2 * t2.1) := by rw [h1]
          _ = 2 ^ (t2.2.2 + 1) * t2.1 := by ring
      · calc b = 2 * (b / 2) := by omega
          _ = 2 * (2 ^ t2.2.2 * t2.2.1) := by rw [h2]
          _ = 2 ^ (t2.2.2 + 1) * t2.2.1 := by ring
    · simp only [stripTwosPair, if_neg he]
      exact ⟨by rw [pow_zero, one_mul], by rw [pow_zero, one_mul], ha, hb, he⟩

theorem gcd_eq_gcd (a b : Int) : gcd a b = (Int.gcd a b : Int) := by
  simp only [gcd]
  by_cases ha : a.natAbs = 0
  · rw [if_pos ha]
    unfold Int.gcd
    rw [ha, Nat.gcd_zero_left]
  · rw [if_neg ha]
    by_cases hb : b.natAbs = 0
    · rw [if_pos hb]
      unfold Int.gcd
      rw [hb, Nat.gcd_zero_right]
    · rw [if_neg hb]
      have hapos : 0 < a.natAbs := Nat.pos_of_ne_zero ha
      have hbpos : 0 < b.natAbs := Nat.pos_of_ne_zero hb
      obtain ⟨hsa, hsb, hpa, hpb, hne⟩ :=
        stripTwosPair_spec (a.natAbs + b.natAbs) a.natAbs b.natAbs hapos hbpos
          (by omega)
      set t := stripTwosPair (a.natAbs + b.natAbs) a.natAbs b.natAbs with ht
      obtain ⟨u, hu, huodd⟩ := oddPart_spec t.1 t.1 hpa le_rfl
      have haodd_pos : 0 < oddPart t.1 t.1 := by
        rcases Nat.eq_zero_or_pos (oddPart t.1 t.1) with h | h
        · rw [h] at huodd; omega
        · exact h
      have hloop := gcdOddLoop_spec (oddPart t.1 t.1 + t.2.1 + 1)
        (oddPart t.1 t.1) t.2.1 huodd hpb (by omega)
      rw [hloop]
      -- gcd of the odd parts equals gcd of the stripped pair
      have hgcd_strip : Nat.gcd (oddPart t.1 t.1) t.2.1 = Nat.gcd t.1 t.2.1 := by
        by_cases hodd1 : t.1 % 2 = 1
        · rw [oddPart_odd_eq t.1 t.1 hodd1]
        · have h2 : t.2.1 % 2 = 1 := by omega
          conv_rhs => rw [hu]
          rw [Nat.gcd_comm (2 ^ u * oddPart t.1 t.1) t.2.1,
            Nat.Coprime.gcd_mul_left_cancel_right, Nat.gcd_comm]
          exact Nat.Coprime.pow_left u (Nat.coprime_two_left.mpr (Nat.odd_iff.mpr h2))
      rw [hgcd_strip]
      have hmain : Nat.gcd a.natAbs b.natAbs = 2 ^ t.2.2 * Nat.gcd t.1 t.2.1 := by
        conv_lhs => rw [hsa, hsb]
        exact Nat.gcd_mul_left _ _ _
      unfold Int.gcd
      rw [hmain]
      push_cast
      ring

theorem lcm_eq_lcm {a b : Int} (ha : 0 < a) (hb : 0 < b) :
    lcm a b = (Nat.lcm a.toNat b.toNat : Int) := by
  unfold lcm
  rw [if_neg (by omega : ¬(a = 0 ∧ b = 0))]
  rw [gcd_eq_gcd]
  have habs : bcu.abs (a * b) = a * b := by
    unfold bcu.abs
    rw [if_pos (by positivity)]
  rw [habs]
  have hgdvd : (↑(Int.gcd a b) : Int) ∣ a * b := Int.gcd_dvd_left.mul_right b
  rw [Int.tdiv_eq_ediv_of_dvd hgdvd]
  have hg : Int.gcd a b = Nat.gcd a.toNat b.toNat := by
    unfold Int.gcd
    congr 1 <;> omega
  have hab : a * b = ((a.toNat * b.toNat : Nat) : Int) := by
    push_cast
    rw [Int.toNat_of_nonneg ha.le, Int.toNat_of_nonneg hb.le]
  rw [hab, hg]
  rw [← Int.natCast_div]
  rfl

end bcu

/-! ### Number-theoretic facts about the Paillier key material -/

theorem binomMod (n x : Int) : ∀ k : ℕ,
    Int.ModEq (n ^ 2) ((1 + x * n) ^ k) (1 + (k : Int) * x * n)
  | 0 => by simp
  | k + 1 => by
    have ih := binomMod n x k
    calc (1 + x * n) ^ (k + 1) = (1 + x * n) ^ k * (1 + x * n) := pow_succ _ _
      _ ≡ (1 + (k : Int) * x * n) * (1 + x * n) [ZMOD n ^ 2] := ih.mul_right _
      _ ≡ 1 + ((k + 1 : ℕ) : Int) * x * n [ZMOD n ^ 2] := by
          apply Int.modEq_of_dvd
          refine ⟨-((k : Int) * x ^ 2), ?_⟩
          push_cast
          ring

theorem fermat_pair {p q : ℕ} (hp : p.Prime) (hq : q.Prime) (hpq : p ≠ q)
    {w : Int} (hw : Int.gcd w ((p : Int) * q) = 1) {l : ℕ}
    (hlp : (p - 1) ∣ l) (hlq : (q - 1) ∣ l) :
    Int.ModEq ((p : Int) * q) (w ^ l) 1 := by
  have hone : ∀ r : ℕ, r.Prime → (r - 1) ∣ l → Int.gcd w (r : Int) = 1 →
      Int.ModEq (r : Int) (w ^ l) 1 := by
    intro r hr hrl hwr
    have hcop : IsCoprime w (r : Int) := Int.isCoprime_iff_gcd_eq_one.mpr hwr
    have hferm := Int.ModEq.pow_card_sub_one_eq_one hr hcop
    obtain ⟨t, ht⟩ := hrl
    rw [ht, pow_mul]
    calc (w ^ (r - 1)) ^ t ≡ 1 ^ t [ZMOD (r : Int)] := hferm.pow t
      _ = 1 := one_pow t
  have hgp : Int.gcd w (p : Int) = 1 := by
    have hdvd : (↑(Int.gcd w (p : Int)) : ℤ) ∣ ↑(Int.gcd w ((p : Int) * q)) :=
      Int.dvd_gcd Int.gcd_dvd_left (Int.gcd_dvd_right.mul_right _)
    rw [hw] at hdvd
    exact Nat.dvd_one.mp (by exact_mod_cast hdvd)
  have hgq : Int.gcd w (q : Int) = 1 := by
    have hdvd : (↑(Int.gcd w (q : Int)) : ℤ) ∣ ↑(Int.gcd w ((p : Int) * q)) :=
      Int.dvd_gcd Int.gcd_dvd_left (Int.gcd_dvd_right.mul_left _)
    rw [hw] at hdvd
    exact Nat.dvd_one.mp (by exact_mod_cast hdvd)
  have hcopn : ((p : Int)).natAbs.Coprime ((q : Int)).natAbs := by
    simpa using (Nat.coprime_primes hp hq).mpr hpq
  exact (Int.modEq_and_modEq_iff_modEq_mul hcopn).mp
    ⟨hone p hp hlp hgp, hone q hq hlq hgq⟩

namespace ValidKeyPair

variable {p q : ℕ} {sk : PrivateKey}

theorem n_gt_one (h : ValidKeyPair p q sk) : 1 < sk.publicKey.n := by
  rw [h.hn]
  have h2 : 2 ≤ p := h.hp.two_le
  have h3 : 2 ≤ q := h.hq.two_le
  have : (2 : Int) ≤ p := by exact_mod_cast h2
  have : (2 : Int) ≤ q := by exact_mod_cast h3
  nlinarith

theorem n2_eq (_h : ValidKeyPair p q sk) :
    sk.publicKey.n2 = sk.publicKey.n ^ 2 := rfl

theorem n2_gt_one (h : ValidKeyPair p q sk) : 1 < sk.publicKey.n2 := by
  rw [h.n2_eq]
  nlinarith [h.n_gt_one]

theorem lam_dvd_nat_p (h : ValidKeyPair p q sk) : (p - 1) ∣ sk.lambda.toNat := by
  have h1 : ((p - 1 : ℕ) : Int) ∣ ((sk.lambda.toNat : ℕ) : Int) := by
    rw [Nat.cast_sub h.hp.one_le, Nat.cast_one,
      Int.toNat_of_nonneg h.hlam.le]
    exact h.hlp
  exact_mod_cast h1

theorem lam_dvd_nat_q (h : ValidKeyPair p q sk) : (q - 1) ∣ sk.lambda.toNat := by
  have h1 : ((q - 1 : ℕ) : Int) ∣ ((sk.lambda.toNat : ℕ) : Int) := by
    rw [Nat.cast_sub h.hq.one_le, Nat.cast_one,
      Int.toNat_of_nonneg h.hlam.le]
    exact h.hlq
  exact_mod_cast h1

/-- Carmichael-style congruence: any `w` coprime to `n` satisfies
`w ^ lambda ≡ 1 (mod n)` for a valid key. -/
theorem pow_lam_modEq_one (h : ValidKeyPair p q sk) {w : Int}
    (hw : Int.gcd w sk.publicKey.n = 1) :
    Int.ModEq sk.publicKey.n (w ^ sk.lambda.toNat) 1 := by
  rw [h.hn]
  rw [h.hn] at hw
  exact fermat_pair h.hp h.hq h.hpq hw h.lam_dvd_nat_p h.lam_dvd_nat_q

theorem n_dvd_n2 (h : ValidKeyPair p q sk) :
    sk.publicKey.n ∣ sk.publicKey.n2 := by
  rw [h.n2_eq, sq]
  exact dvd_mul_right _ _

/-- The generator exponentiation: `g ^ lambda ≡ 1 + gLval·n (mod n²)`,
with `gLval ≥ 0`. -/
theorem gpow_eq (h : ValidKeyPair p q sk) :
    Int.ModEq sk.publicKey.n2 (sk.publicKey.g ^ sk.lambda.toNat)
      (1 + gLval sk * sk.publicKey.n) ∧ 0 ≤ gLval sk := by
  have hn1 := h.n_gt_one
  have hN1 := h.n2_gt_one
  have hdvd := h.n_dvd_n2
  have hA_modEq : Int.ModEq sk.publicKey.n2
      ((sk.publicKey.g ^ sk.lambda.toNat) % sk.publicKey.n2)
      (sk.publicKey.g ^ sk.lambda.toNat) := Int.emod_emod_of_dvd _ dvd_rfl
  have hA_one : Int.ModEq sk.publicKey.n
      ((sk.publicKey.g ^ sk.lambda.toNat) % sk.publicKey.n2) 1 :=
    (hA_modEq.of_dvd hdvd).trans (h.pow_lam_modEq_one h.hgco)
  have hAnonneg : 0 ≤ (sk.publicKey.g ^ sk.lambda.toNat) % sk.publicKey.n2 :=
    Int.emod_nonneg _ (by omega)
  unfold gLval L
  generalize hA : (sk.publicKey.g ^ sk.lambda.toNat) % sk.publicKey.n2 = A
    at hA_modEq hA_one hAnonneg ⊢
  obtain ⟨t, ht⟩ := hA_one.symm.dvd
  have hApos : 1 ≤ A := by
    by_contra hlt
    push_neg at hlt
    have hA0 : A = 0 := le_antisymm (by linarith) hAnonneg
    have hdvd1 : sk.publicKey.n ∣ (1 : Int) :=
      ⟨-t, by rw [mul_neg]; rw [hA0] at ht; linarith⟩
    have := Int.le_of_dvd one_pos hdvd1
    linarith
  have htnn : 0 ≤ t := by
    by_contra htneg
    push_neg at htneg
    have : sk.publicKey.n * t < 0 := mul_neg_of_pos_of_neg (by linarith) htneg
    linarith
  have hAsub : A - 1 = t * sk.publicKey.n := by
    have := mul_comm sk.publicKey.n t
    linarith
  rw [hAsub, Int.mul_tdiv_cancel t (by omega : sk.publicKey.n ≠ 0)]
  refine ⟨?_, htnn⟩
  have hAval : A = 1 + t * sk.publicKey.n := by linarith
  rw [← hAval]
  exact hA_modEq.symm

theorem gLval_mu (h : ValidKeyPair p q sk) :
    (gLval sk * sk.mu) % sk.publicKey.n = 1 % sk.publicKey.n := by
  have hmus := h.hmus
  rw [bcu.modPow_eq (by have := h.n2_gt_one; omega) h.hlam.le
    (Or.inl h.n2_gt_one)] at hmus
  exact Option.some.inj hmus

end ValidKeyPair

namespace ValidKeyPair

variable {p q : ℕ} {sk : PrivateKey}

/-- Decryption computed from any congruence `c^lambda ≡ 1 + z·n (mod n²)`. -/
theorem decrypt_core (h : ValidKeyPair p q sk) {c z : Int}
    (hz : Int.ModEq sk.publicKey.n2 (c ^ sk.lambda.toNat)
      (1 + z * sk.publicKey.n)) :
    sk.decrypt c = some ((z * sk.mu) % sk.publicKey.n) := by
  have hn1 := h.n_gt_one
  have hN1 := h.n2_gt_one
  unfold PrivateKey.decrypt
  rw [bcu.modPow_eq (by omega) h.hlam.le (Or.inl hN1)]
  have hZ0 : 0 ≤ z % sk.publicKey.n := Int.emod_nonneg z (by omega)
  have hZlt : z % sk.publicKey.n < sk.publicKey.n :=
    Int.emod_lt_of_pos z (by omega)
  have key : (c ^ sk.lambda.toNat) % sk.publicKey.n2
      = 1 + (z % sk.publicKey.n) * sk.publicKey.n := by
    have hstep : Int.ModEq sk.publicKey.n2 (1 + z * sk.publicKey.n)
        (1 + (z % sk.publicKey.n) * sk.publicKey.n) := by
      apply Int.modEq_of_dvd
      refine ⟨-(z / sk.publicKey.n), ?_⟩
      have hzdef : z % sk.publicKey.n
          = z - sk.publicKey.n * (z / sk.publicKey.n) := Int.emod_def z _
      rw [h.n2_eq, hzdef]
      ring
    have hcong := hz.trans hstep
    have hrange : 0 ≤ 1 + (z % sk.publicKey.n) * sk.publicKey.n ∧
        1 + (z % sk.publicKey.n) * sk.publicKey.n < sk.publicKey.n2 := by
      constructor
      · nlinarith
      · rw [h.n2_eq]
        nlinarith
    calc (c ^ sk.lambda.toNat) % sk.publicKey.n2
        = (1 + (z % sk.publicKey.n) * sk.publicKey.n) % sk.publicKey.n2 := hcong
      _ = 1 + (z % sk.publicKey.n) * sk.publicKey.n :=
          Int.emod_eq_of_lt hrange.1 hrange.2
  simp only [Option.map]
  rw [key]
  have hL : L (1 + (z % sk.publicKey.n) * sk.publicKey.n) sk.publicKey.n
      = z % sk.publicKey.n := by
    unfold L
    rw [show 1 + (z % sk.publicKey.n) * sk.publicKey.n - 1
      = (z % sk.publicKey.n) * sk.publicKey.n by ring]
    exact Int.mul_tdiv_cancel _ (by omega)
  rw [hL]
  congr 1
  rw [Int.tmod_eq_emod (mul_nonneg hZ0 h.hmu) (by omega)]
  have hzz : Int.ModEq sk.publicKey.n (z % sk.publicKey.n) z :=
    Int.emod_emod_of_dvd z dvd_rfl
  exact hzz.mul_right sk.mu

/-- Any ciphertext congruent to `g^M · R^n (mod n²)` with `R` coprime to
`n` has `c^lambda ≡ 1 + M·gLval·n (mod n²)`. -/
theorem enc_pow (h : ValidKeyPair p q sk) {M : ℕ} {R c : Int}
    (hR : Int.gcd R sk.publicKey.n = 1)
    (hc : Int.ModEq sk.publicKey.n2 c
      (sk.publicKey.g ^ M * R ^ sk.publicKey.n.toNat)) :
    Int.ModEq sk.publicKey.n2 (c ^ sk.lambda.toNat)
      (1 + ((M : Int) * gLval sk) * sk.publicKey.n) := by
  obtain ⟨hg, hL0⟩ := h.gpow_eq
  have hn1 := h.n_gt_one
  have h1 := hc.pow sk.lambda.toNat
  have h2 : (sk.publicKey.g ^ M * R ^ sk.publicKey.n.toNat) ^ sk.lambda.toNat
      = (sk.publicKey.g ^ sk.lambda.toNat) ^ M
        * (R ^ sk.lambda.toNat) ^ sk.publicKey.n.toNat := by
    rw [mul_pow, pow_right_comm, pow_right_comm R]
  have h3 : Int.ModEq sk.publicKey.n2 ((sk.publicKey.g ^ sk.lambda.toNat) ^ M)
      (1 + (M : Int) * gLval sk * sk.publicKey.n) := by
    refine (hg.pow M).trans ?_
    have := binomMod sk.publicKey.n (gLval sk) M
    rwa [← h.n2_eq] at this
  have hRl : Int.ModEq sk.publicKey.n (R ^ sk.lambda.toNat) 1 :=
    h.pow_lam_modEq_one hR
  obtain ⟨s, hs⟩ := hRl.symm.dvd
  have h4 : R ^ sk.lambda.toNat = 1 + s * sk.publicKey.n := by
    have := mul_comm sk.publicKey.n s
    linarith
  have h5 : Int.ModEq sk.publicKey.n2
      ((R ^ sk.lambda.toNat) ^ sk.publicKey.n.toNat) 1 := by
    rw [h4]
    have h6 := binomMod sk.publicKey.n s sk.publicKey.n.toNat
    rw [← h.n2_eq] at h6
    refine h6.trans ?_
    apply Int.modEq_of_dvd
    refine ⟨-s, ?_⟩
    have h7 : ((sk.publicKey.n.toNat : ℕ) : Int) = sk.publicKey.n :=
      Int.toNat_of_nonneg (by omega)
    rw [h7, h.n2_eq]
    ring
  have h8 := h3.mul h5
  calc c ^ sk.lambda.toNat
      ≡ (sk.publicKey.g ^ M * R ^ sk.publicKey.n.toNat) ^ sk.lambda.toNat
        [ZMOD sk.publicKey.n2] := h1
    _ = (sk.publicKey.g ^ sk.lambda.toNat) ^ M
        * (R ^ sk.lambda.toNat) ^ sk.publicKey.n.toNat := h2
    _ ≡ (1 + (M : Int) * gLval sk * sk.publicKey.n) * 1
        [ZMOD sk.publicKey.n2] := h8
    _ = 1 + ((M : Int) * gLval sk) * sk.publicKey.n := by ring

/-- The master decryption lemma: any ciphertext congruent to
`g^M · R^n (mod n²)` with `R` coprime to `n` decrypts to `M mod n`. -/
theorem master_decrypt (h : ValidKeyPair p q sk) {M : ℕ} {R c : Int}
    (hR : Int.gcd R sk.publicKey.n = 1)
    (hc : Int.ModEq sk.publicKey.n2 c
      (sk.publicKey.g ^ M * R ^ sk.publicKey.n.toNat)) :
    sk.decrypt c = some ((M : Int) % sk.publicKey.n) := by
  rw [decrypt_core h (enc_pow h hR hc)]
  congr 1
  have hmu : Int.ModEq sk.publicKey.n (gLval sk * sk.mu) 1 := h.gLval_mu
  have h1 : Int.ModEq sk.publicKey.n ((M : Int) * (gLval sk * sk.mu))
      ((M : Int) * 1) := hmu.mul_left _
  calc ((M : Int) * gLval sk * sk.mu) % sk.publicKey.n
      = ((M : Int) * (gLval sk * sk.mu)) % sk.publicKey.n := by rw [mul_assoc]
    _ = ((M : Int) * 1) % sk.publicKey.n := h1
    _ = (M : Int) % sk.publicKey.n := by rw [mul_one]

end ValidKeyPair

/-- Computation of `L` on a residue congruent to `1 + z·n` modulo `n²`. -/
theorem L_emod_of_modEq {n X z : Int} (hn : 1 < n)
    (h : Int.ModEq (n ^ 2) X (1 + z * n)) :
    X % n ^ 2 = 1 + (z % n) * n ∧ L (X % n ^ 2) n = z % n := by
  have hZ0 : 0 ≤ z % n := Int.emod_nonneg z (by omega)
  have hZlt : z % n < n := Int.emod_lt_of_pos z (by omega)
  have hstep : Int.ModEq (n ^ 2) (1 + z * n) (1 + (z % n) * n) := by
    apply Int.modEq_of_dvd
    refine ⟨-(z / n), ?_⟩
    have hzdef : z % n = z - n * (z / n) := Int.emod_def z n
    rw [hzdef]
    ring
  have hcong := h.trans hstep
  have hlt : 1 + (z % n) * n < n ^ 2 := by nlinarith
  have hge : 0 ≤ 1 + (z % n) * n := by nlinarith
  have hx : X % n ^ 2 = 1 + (z % n) * n := by
    calc X % n ^ 2 = (1 + (z % n) * n) % n ^ 2 := hcong
      _ = 1 + (z % n) * n := Int.emod_eq_of_lt hge hlt
  refine ⟨hx, ?_⟩
  rw [hx]
  unfold L
  rw [show 1 + (z % n) * n - 1 = (z % n) * n by ring]
  exact Int.mul_tdiv_cancel _ (by omega)

/-- Evaluation of `encrypt` with both `modPow` calls resolved: the
ciphertext is a canonical residue modulo `n²` congruent to `g^m · r^n`. -/
theorem PublicKey.encrypt_eq {pk : PublicKey} (hn : 1 < pk.n) {m : Int}
    (hm : 0 ≤ m) (r : Int) :
    pk.encrypt m r
      = some ((pk.g ^ m.toNat % pk.n2) * (r ^ pk.n.toNat % pk.n2) % pk.n2) ∧
    0 ≤ (pk.g ^ m.toNat % pk.n2) * (r ^ pk.n.toNat % pk.n2) % pk.n2 ∧
    (pk.g ^ m.toNat % pk.n2) * (r ^ pk.n.toNat % pk.n2) % pk.n2 < pk.n2 ∧
    Int.ModEq pk.n2
      ((pk.g ^ m.toNat % pk.n2) * (r ^ pk.n.toNat % pk.n2) % pk.n2)
      (pk.g ^ m.toNat * r ^ pk.n.toNat) := by
  have hN1 : 1 < pk.n2 := by
    have : pk.n2 = pk.n ^ 2 := rfl
    nlinarith
  have hA : 0 ≤ pk.g ^ m.toNat % pk.n2 := Int.emod_nonneg _ (by omega)
  have hB : 0 ≤ r ^ pk.n.toNat % pk.n2 := Int.emod_nonneg _ (by omega)
  refine ⟨?_, Int.emod_nonneg _ (by omega), Int.emod_lt_of_pos _ (by omega), ?_⟩
  · unfold PublicKey.encrypt
    rw [bcu.modPow_eq (by omega) hm (Or.inl hN1),
      bcu.modPow_eq (by omega) (by omega : (0 : Int) ≤ pk.n) (Or.inl hN1)]
    simp only
    rw [Int.tmod_eq_emod (mul_nonneg hA hB) (by omega)]
  · have h1 : Int.ModEq pk.n2 (pk.g ^ m.toNat % pk.n2) (pk.g ^ m.toNat) :=
      Int.emod_emod_of_dvd _ dvd_rfl
    have h2 : Int.ModEq pk.n2 (r ^ pk.n.toNat % pk.n2) (r ^ pk.n.toNat) :=
      Int.emod_emod_of_dvd _ dvd_rfl
    exact (Int.emod_emod_of_dvd _ dvd_rfl).trans (h1.mul h2)

/-- `keysFromPrimesSimple` over distinct primes yields a valid key pair
whenever it succeeds (μ exists), with the simple-variant shape. -/
theorem keysFromPrimesSimple_valid {p q : ℕ} (hp : p.Prime) (hq : q.Prime)
    (hpq : p ≠ q) {sk : PrivateKey}
    (hk : keysFromPrimesSimple (p : Int) (q : Int) = some sk) :
    ValidKeyPair p q sk ∧ sk.publicKey.n = (p : Int) * q ∧
    sk.publicKey.g = (p : Int) * q + 1 ∧
    sk.lambda = ((p : Int) - 1) * ((q : Int) - 1) ∧
    sk.p = some (p : Int) ∧ sk.q = some (q : Int) ∧
    bcu.modInv sk.lambda sk.publicKey.n = some sk.mu := by
  have hp2 : 2 ≤ p := hp.two_le
  have hq2 : 2 ≤ q := hq.two_le
  have hpI : (2 : Int) ≤ (p : Int) := by exact_mod_cast hp2
  have hqI : (2 : Int) ≤ (q : Int) := by exact_mod_cast hq2
  have hn1 : (1 : Int) < (p : Int) * q := by nlinarith
  simp only [keysFromPrimesSimple] at hk
  cases hmu : bcu.modInv (((p : Int) - 1) * ((q : Int) - 1)) ((p : Int) * q) with
  | none => rw [hmu] at hk; cases hk
  | some mu =>
    rw [hmu] at hk
    simp only [Option.map] at hk
    have hsk := (Option.some.inj hk).symm
    obtain ⟨hnpos, hgcd, hmu0, hmult, hinv⟩ := bcu.modInv_spec hmu
    have hskp : sk.p = some (p : Int) := by
      rw [hsk]
      simp only [mkPrivateKey]
      rw [if_neg (by omega : ¬(p : Int) = 0)]
    have hskq : sk.q = some (q : Int) := by
      rw [hsk]
      simp only [mkPrivateKey]
      rw [if_neg (by omega : ¬(q : Int) = 0)]
    have hskg : sk.publicKey.g = (p : Int) * q + 1 := by rw [hsk]; rfl
    have hskn : sk.publicKey.n = (p : Int) * q := by rw [hsk]; rfl
    have hsklam : sk.lambda = ((p : Int) - 1) * ((q : Int) - 1) := by rw [hsk]; rfl
    have hskmu : sk.mu = mu := by rw [hsk]; rfl
    have hlampos : 0 < sk.lambda := by rw [hsklam]; nlinarith
    have hlamnn : ((sk.lambda.toNat : ℕ) : Int) = sk.lambda :=
      Int.toNat_of_nonneg hlampos.le
    have hN2 : sk.publicKey.n2 = sk.publicKey.n ^ 2 := rfl
    have hN1 : 1 < sk.publicKey.n2 := by rw [hN2, hskn]; nlinarith
    have hgco : Int.gcd sk.publicKey.g sk.publicKey.n = 1 := by
      rw [hskg, hskn]
      have hme : Int.ModEq ((p : Int) * q) ((p : Int) * q + 1) 1 := by
        apply Int.modEq_of_dvd
        exact ⟨-1, by ring⟩
      rw [bcu.gcd_modEq_left hme, Int.one_gcd]
    refine ⟨⟨hp, hq, hpq, hskn, by rw [hskg]; omega, hgco, hlampos,
      by rw [hsklam]; exact Dvd.intro _ rfl,
      by rw [hsklam]; exact Dvd.intro_left _ rfl,
      by rw [hskmu]; exact hmu0, ?_⟩, hskn, hskg, hsklam, hskp, hskq,
      by rw [hsklam, hskn, hskmu]; exact hmu⟩
    -- mu specification
    rw [bcu.modPow_eq (by omega) hlampos.le (Or.inl hN1)]
    simp only [Option.map]
    congr 1
    have hbin := binomMod sk.publicKey.n 1 sk.lambda.toNat
    have hgpow : Int.ModEq (sk.publicKey.n ^ 2)
        (sk.publicKey.g ^ sk.lambda.toNat) (1 + sk.lambda * sk.publicKey.n) := by
      have hg1 : sk.publicKey.g = 1 + 1 * sk.publicKey.n := by
        rw [hskg, hskn]; ring
      rw [hg1]
      refine hbin.trans ?_
      rw [hlamnn]
      apply Int.modEq_of_dvd
      exact ⟨0, by ring⟩
    have hn1' : 1 < sk.publicKey.n := by rw [hskn]; exact hn1
    obtain ⟨-, hLval⟩ := L_emod_of_modEq hn1' hgpow
    rw [hN2, hLval]
    have hc1 : Int.ModEq sk.publicKey.n (sk.lambda % sk.publicKey.n) sk.lambda :=
      Int.emod_emod_of_dvd _ dvd_rfl
    have hc2 := hc1.mul_right sk.mu
    calc (sk.lambda % sk.publicKey.n * sk.mu) % sk.publicKey.n
        = (sk.lambda * sk.mu) % sk.publicKey.n := hc2
      _ = 1 % sk.publicKey.n := by
          rw [hsklam, hskmu, hskn]
          exact hinv

/-- `keysFromPrimes` over distinct primes with a caller-supplied generator
coprime to `n` yields a valid key pair whenever it succeeds. -/
theorem keysFromPrimes_valid {p q : ℕ} (hp : p.Prime) (hq : q.Prime)
    (hpq : p ≠ q) {g : Int} (hg0 : 0 ≤ g)
    (hgco : Int.gcd g ((p : Int) * q) = 1) {sk : PrivateKey}
    (hk : keysFromPrimes (p : Int) (q : Int) g = some sk) :
    ValidKeyPair p q sk ∧ sk.publicKey.n = (p : Int) * q ∧
    sk.publicKey.g = g ∧ sk.p = some (p : Int) ∧ sk.q = some (q : Int) := by
  have hp2 : 2 ≤ p := hp.two_le
  have hq2 : 2 ≤ q := hq.two_le
  have hpI : (2 : Int) ≤ (p : Int) := by exact_mod_cast hp2
  have hqI : (2 : Int) ≤ (q : Int) := by exact_mod_cast hq2
  have hn1 : (1 : Int) < (p : Int) * q := by nlinarith
  have hN1 : (1 : Int) < ((p : Int) * q) ^ 2 := by nlinarith
  have hlcm : bcu.lcm ((p : Int) - 1) ((q : Int) - 1)
      = ((Nat.lcm (p - 1) (q - 1) : ℕ) : Int) := by
    have h1 : ((p : Int) - 1).toNat = p - 1 := by omega
    have h2 : ((q : Int) - 1).toNat = q - 1 := by omega
    rw [bcu.lcm_eq_lcm (by omega) (by omega), h1, h2]
  have hlcmpos : 0 < Nat.lcm (p - 1) (q - 1) :=
    Nat.pos_of_ne_zero (Nat.lcm_ne_zero (by omega) (by omega))
  simp only [keysFromPrimes] at hk
  cases hpow : bcu.modPow g (bcu.lcm ((p : Int) - 1) ((q : Int) - 1))
      (((p : Int) * q) ^ 2) with
  | none => rw [hpow] at hk; cases hk
  | some gl =>
    rw [hpow] at hk
    simp only [Option.bind] at hk
    cases hmu : bcu.modInv (L gl ((p : Int) * q)) ((p : Int) * q) with
    | none => rw [hmu] at hk; cases hk
    | some mu =>
      rw [hmu] at hk
      simp only [Option.map] at hk
      have hsk := (Option.some.inj hk).symm
      obtain ⟨hnpos, hgcdL, hmu0, hmult, hinv⟩ := bcu.modInv_spec hmu
      have hskp : sk.p = some (p : Int) := by
        rw [hsk]
        simp only [mkPrivateKey]
        rw [if_neg (by omega : ¬(p : Int) = 0)]
      have hskq : sk.q = some (q : Int) := by
        rw [hsk]
        simp only [mkPrivateKey]
        rw [if_neg (by omega : ¬(q : Int) = 0)]
      have hskg : sk.publicKey.g = g := by rw [hsk]; rfl
      have hskn : sk.publicKey.n = (p : Int) * q := by rw [hsk]; rfl
      have hsklam : sk.lambda = bcu.lcm ((p : Int) - 1) ((q : Int) - 1) := by
        rw [hsk]; rfl
      have hskmu : sk.mu = mu := by rw [hsk]; rfl
      have hlampos : 0 < sk.lambda := by
        rw [hsklam, hlcm]
        exact_mod_cast hlcmpos
      have hN2 : sk.publicKey.n2 = sk.publicKey.n ^ 2 := rfl
      refine ⟨⟨hp, hq, hpq, hskn, by rw [hskg]; exact hg0,
        by rw [hskg, hskn]; exact hgco, hlampos, ?_, ?_,
        by rw [hskmu]; exact hmu0, ?_⟩, hskn, hskg, hskp, hskq⟩
      · rw [hsklam, hlcm]
        have hd : (p - 1) ∣ Nat.lcm (p - 1) (q - 1) := Nat.dvd_lcm_left _ _
        have hd2 : ((p - 1 : ℕ) : Int) ∣ ((Nat.lcm (p - 1) (q - 1) : ℕ) : Int) := by
          exact_mod_cast hd
        rw [Nat.cast_sub (by omega), Nat.cast_one] at hd2
        exact hd2
      · rw [hsklam, hlcm]
        have hd : (q - 1) ∣ Nat.lcm (p - 1) (q - 1) := Nat.dvd_lcm_right _ _
        have hd2 : ((q - 1 : ℕ) : Int) ∣ ((Nat.lcm (p - 1) (q - 1) : ℕ) : Int) := by
          exact_mod_cast hd
        rw [Nat.cast_sub (by omega), Nat.cast_one] at hd2
        exact hd2
      · -- mu specification comes directly from the modInv call of the source
        have hpow' : bcu.modPow sk.publicKey.g sk.lambda sk.publicKey.n2
            = some gl := by
          rw [hskg, hsklam, hN2, hskn]
          exact hpow
        rw [hpow']
        simp only [Option.map]
        congr 1
        rw [hskn, hskmu]
        exact hinv

namespace bcu

theorem modPow_exp_zero {n : Int} (hn : 0 < n) (a : Int) :
    modPow a 0 n = some 1 := by
  have h := toZn_eq hn a
  unfold modPow
  rw [if_neg (by omega), h]
  simp [modPowLoop_zero_exp]

end bcu

/-- The fold of `addition` over a nonempty list of nonnegative values is
the product of the list modulo `n²`. -/
theorem PublicKey.addition_eq_prod {pk : PublicKey} (hN : 0 < pk.n2)
    {cs : List Int} (hne : cs ≠ []) (hmem : ∀ c ∈ cs, 0 ≤ c) :
    pk.addition cs = cs.prod % pk.n2 := by
  have hfold : ∀ cs : List Int, ∀ acc : Int, 0 ≤ acc → cs ≠ [] →
      (∀ c ∈ cs, 0 ≤ c) →
      List.foldl (fun sum next => Int.tmod (sum * next) pk.n2) acc cs
        = (acc * cs.prod) % pk.n2 := by
    intro cs
    induction cs with
    | nil => intro acc _ hne _; exact absurd rfl hne
    | cons c cs ih =>
      intro acc hacc _ hmem
      have hc0 : 0 ≤ c := hmem c (List.mem_cons_self c cs)
      simp only [List.foldl]
      rw [Int.tmod_eq_emod (mul_nonneg hacc hc0) (by omega)]
      by_cases hcs : cs = []
      · subst hcs
        simp only [List.foldl, List.prod_cons, List.prod_nil, mul_one]
      · have ihh := ih ((acc * c) % pk.n2) (Int.emod_nonneg _ (by omega)) hcs
          (fun x hx => hmem x (List.mem_cons_of_mem c hx))
        rw [ihh]
        have h1 : Int.ModEq pk.n2 ((acc * c) % pk.n2) (acc * c) :=
          Int.emod_emod_of_dvd _ dvd_rfl
        have h2 := h1.mul_right cs.prod
        calc ((acc * c) % pk.n2 * cs.prod) % pk.n2
            = (acc * c * cs.prod) % pk.n2 := h2
          _ = (acc * (c :: cs).prod) % pk.n2 := by
              rw [List.prod_cons, mul_assoc]
  have h := hfold cs 1 (by omega) hne hmem
  unfold PublicKey.addition
  rw [h, one_mul]

/-! ### The claims -/

set_option maxRecDepth 8000

/-- C1: for every valid key pair (simple or general variant) and every
message `0 ≤ m < n`, decrypting the encryption of `m` returns `m`, for
every `r` the default loop of `encrypt` can draw (an `r` in `[1, n]` with
`gcd(r, n) = 1`). -/
theorem C1_decrypt_encrypt_roundtrip
    (p q : ℕ) (hp : p.Prime) (hq : q.Prime) (hpq : p ≠ q) (sk : PrivateKey)
    (hkey : keysFromPrimesSimple (p : Int) (q : Int) = some sk ∨
      ∃ g : Int, 0 ≤ g ∧ Int.gcd g ((p : Int) * q) = 1 ∧
        keysFromPrimes (p : Int) (q : Int) g = some sk)
    (m r : Int) (hm0 : 0 ≤ m) (hmn : m < sk.publicKey.n)
    (hr : encryptDraw sk.publicKey r) :
    (sk.publicKey.encrypt m r).bind sk.decrypt = some m := by
  have hvalid : ValidKeyPair p q sk := by
    rcases hkey with hk | ⟨g, hg0, hgco, hk⟩
    · exact (keysFromPrimesSimple_valid hp hq hpq hk).1
    · exact (keysFromPrimes_valid hp hq hpq hg0 hgco hk).1
  have hn1 := hvalid.n_gt_one
  obtain ⟨henc, hc0, hclt, hcmod⟩ := PublicKey.encrypt_eq hn1 hm0 r
  rw [henc]
  show sk.decrypt _ = some m
  have hrg : Int.gcd r sk.publicKey.n = 1 := by
    have h2 := hr.2
    rw [bcu.gcd_eq_gcd] at h2
    exact_mod_cast h2
  rw [hvalid.master_decrypt hrg hcmod]
  rw [Int.toNat_of_nonneg hm0, Int.emod_eq_of_lt hm0 hmn]

/-- Witness for C1: the key from primes 11, 13, message 7, random
factor 2. -/
theorem C1_witness :
    Nat.Prime 11 ∧ Nat.Prime 13 ∧ (11 : ℕ) ≠ 13 ∧
    keysFromPrimesSimple ((11 : ℕ) : Int) ((13 : ℕ) : Int) = some sk11 ∧
    (0 : Int) ≤ 7 ∧ (7 : Int) < sk11.publicKey.n ∧
    encryptDraw sk11.publicKey 2 ∧
    (sk11.publicKey.encrypt 7 2).bind sk11.decrypt = some 7 :=
  ⟨by norm_num, by norm_num, by norm_num, by decide, by decide, by decide,
    by decide,
    C1_decrypt_encrypt_roundtrip 11 13 (by norm_num) (by norm_num)
      (by norm_num) sk11 (Or.inl (by decide)) 7 2 (by decide) (by decide)
      (by decide)⟩

/-- C5: the loop of `generateDualG` uses `&&` between the two gcd tests,
so it exits as soon as one gcd is 1.  With `n1 = 6`, `n2 = 10`, the draw
`r = 3` escapes the loop and is returned even though `gcd(3, 6) = 3 ≠ 1`. -/
theorem C5_generateDualG_and_bug :
    generateDualGReturns 6 10 3 ∧ bcu.gcd 3 6 ≠ 1 := by decide

/-- C7 (amended): `modPow` fails exactly on `n = 0`; for `n > 0`, `b ≥ 0`
it returns `a^b mod n ∈ [0, n)` except in the corner `n = 1, b = 0`,
where the loop never runs and the initial accumulator `1n` (which is not
in `[0, 1)`) is returned; for `b < 0` it is `modInv` applied to the
nonnegative-exponent result. -/
theorem C7_modPow_spec (a b n : Int) :
    (n = 0 → bcu.modPow a b n = none) ∧
    (0 < n → 0 ≤ b → 1 < n ∨ 0 < b →
      bcu.modPow a b n = some (a ^ b.toNat % n) ∧
      0 ≤ a ^ b.toNat % n ∧ a ^ b.toNat % n < n) ∧
    (n = 1 → bcu.modPow a 0 n = some 1) ∧
    (n ≠ 0 → b < 0 →
      bcu.modPow a b n = (bcu.modPow a (-b) n).bind fun v => bcu.modInv v n) := by
  refine ⟨?_, ?_, ?_, ?_⟩
  · intro h; subst h; rfl
  · intro h1 h2 h3
    exact ⟨bcu.modPow_eq h1 h2 h3 a, Int.emod_nonneg _ (by omega),
      Int.emod_lt_of_pos _ h1⟩
  · intro h; subst h
    exact bcu.modPow_exp_zero one_pos a
  · intro h1 h2
    exact bcu.modPow_neg_exp h1 h2 a

/-- Witness for C7 at `a = 5`, `b = 3`, `n = 7` (and the `b < 0`, `n = 0`
and `n = 1` branches at their own inputs). -/
theorem C7_witness :
    ((0 : Int) = 0 → bcu.modPow 5 3 0 = none) ∧
    ((0 : Int) < 7 ∧ (0 : Int) ≤ 3 ∧
      bcu.modPow 5 3 7 = some ((5 : Int) ^ (3 : Int).toNat % 7)) ∧
    bcu.modPow 5 (-3) 7
      = (bcu.modPow 5 (-(-3) : Int) 7).bind (fun v => bcu.modInv v 7) :=
  ⟨(C7_modPow_spec 5 3 0).1,
    ⟨by decide, by decide,
      ((C7_modPow_spec 5 3 7).2.1 (by decide) (by decide)
        (Or.inl (by decide))).1⟩,
    (C7_modPow_spec 5 (-3) 7).2.2.2 (by decide) (by decide)⟩

/-- Counterexample to C7 as stated: `modPow(2, 0, 1)` returns `1`, which
is neither `2^0 mod 1 = 0` nor inside `[0, 1)`. -/
theorem C7_counterexample :
    bcu.modPow 2 0 1 = some 1 ∧ (2 : Int) ^ (0 : Int).toNat % 1 = 0 ∧
    ¬((1 : Int) < 1) := by decide

/-- C9: for a positive modulus, `gcd(r, n) = 1` iff `gcd(r, n²) = 1`, so
every `r` the default loop of `encrypt` accepts is coprime to `n²`. -/
theorem C9_gcd_n_iff_gcd_n2 (pk : PublicKey) (r : Int) (_hn : 0 < pk.n) :
    (bcu.gcd r pk.n = 1 ↔ bcu.gcd r pk.n2 = 1) ∧
    (encryptDraw pk r → bcu.gcd r pk.n2 = 1) := by
  have hiff : Int.gcd r pk.n = 1 ↔ Int.gcd r pk.n2 = 1 := by
    have habs : pk.n2.natAbs = pk.n.natAbs ^ 2 := by
      show (pk.n ^ 2).natAbs = pk.n.natAbs ^ 2
      exact Int.natAbs_pow pk.n 2
    unfold Int.gcd
    rw [habs]
    exact (Nat.coprime_pow_right_iff (by norm_num) _ _).symm
  have hmain : bcu.gcd r pk.n = 1 ↔ bcu.gcd r pk.n2 = 1 := by
    rw [bcu.gcd_eq_gcd, bcu.gcd_eq_gcd]
    constructor
    · intro h
      have h' : Int.gcd r pk.n = 1 := by exact_mod_cast h
      exact_mod_cast hiff.mp h'
    · intro h
      have h' : Int.gcd r pk.n2 = 1 := by exact_mod_cast h
      exact_mod_cast hiff.mpr h'
  exact ⟨hmain, fun hdraw => hmain.mp hdraw.2⟩

/-- Witness for C9 at `n = 143`, `r = 2`. -/
theorem C9_witness :
    (0 : Int) < (PublicKey.mk 143 144).n ∧
    ((bcu.gcd 2 (PublicKey.mk 143 144).n = 1 ↔
        bcu.gcd 2 (PublicKey.mk 143 144).n2 = 1) ∧
      (encryptDraw (PublicKey.mk 143 144) 2 →
        bcu.gcd 2 (PublicKey.mk 143 144).n2 = 1)) :=
  ⟨by decide, C9_gcd_n_iff_gcd_n2 (PublicKey.mk 143 144) 2 (by decide)⟩

/-- C10: `addition` accepts any number of arguments: zero arguments give
`1` (a trivial encryption of 0, since `encrypt(0, 1) = 1`), one argument
gives `c mod n²`, and in general the left fold equals the product of the
ciphertexts modulo `n²`. -/
theorem C10_addition_arity (pk : PublicKey) (hn : 1 < pk.n) :
    (pk.addition [] = 1 ∧ pk.encrypt 0 1 = some 1) ∧
    (∀ c : Int, 0 ≤ c → pk.addition [c] = c % pk.n2) ∧
    (∀ cs : List Int, cs ≠ [] → (∀ c ∈ cs, 0 ≤ c) →
      pk.addition cs = cs.prod % pk.n2) := by
  have hN1 : 1 < pk.n2 := by
    have : pk.n2 = pk.n ^ 2 := rfl
    nlinarith
  refine ⟨⟨rfl, ?_⟩, ?_, ?_⟩
  · obtain ⟨henc, -, -, -⟩ := PublicKey.encrypt_eq hn le_rfl (1 : Int)
    rw [henc]
    congr 1
    rw [show (0 : Int).toNat = 0 from rfl, pow_zero, one_pow]
    have hone : (1 : Int) % pk.n2 = 1 := Int.emod_eq_of_lt (by omega) hN1
    rw [hone, one_mul, hone]
  · intro c hc0
    show Int.tmod (1 * c) pk.n2 = c % pk.n2
    rw [one_mul, Int.tmod_eq_emod hc0 (by omega)]
  · intro cs hne hmem
    exact PublicKey.addition_eq_prod (by omega) hne hmem

/-- Witness for C10 at `n = 143` with lists `[]`, `[5]`, `[5, 7]`. -/
theorem C10_witness :
    (1 : Int) < (PublicKey.mk 143 144).n ∧
    (PublicKey.mk 143 144).addition [] = 1 ∧
    (PublicKey.mk 143 144).encrypt 0 1 = some 1 ∧
    (PublicKey.mk 143 144).addition [5] = 5 % (PublicKey.mk 143 144).n2 ∧
    (PublicKey.mk 143 144).addition [5, 7]
      = ([5, 7] : List Int).prod % (PublicKey.mk 143 144).n2 :=
  ⟨by decide,
    (C10_addition_arity (PublicKey.mk 143 144) (by decide)).1.1,
    (C10_addition_arity (PublicKey.mk 143 144) (by decide)).1.2,
    (C10_addition_arity (PublicKey.mk 143 144) (by decide)).2.1 5 (by decide),
    (C10_addition_arity (PublicKey.mk 143 144) (by decide)).2.2 [5, 7]
      (by decide) (by decide)⟩

/-- Casting the sum of the `toNat`s of nonnegative integers. -/
theorem sum_toNat_cast : ∀ (l : List (Int × Int)), (∀ x ∈ l, 0 ≤ x.1) →
    (((l.map (fun x => x.1.toNat)).sum : ℕ) : Int) = (l.map Prod.fst).sum := by
  intro l
  induction l with
  | nil => intro; simp
  | cons x xs ih =>
    intro hmem
    simp only [List.map_cons, List.sum_cons, Nat.cast_add]
    rw [ih (fun y hy => hmem y (List.mem_cons_of_mem x hy)),
      Int.toNat_of_nonneg (hmem x (List.mem_cons_self x xs))]

/-- Elementwise encryption of a list of message/random pairs: the list of
ciphertexts exists, all its entries are canonical residues, its product
is congruent to `g^(Σ mᵢ) · (Π rᵢ)^n`, and `Π rᵢ` stays coprime to `n`. -/
theorem ValidKeyPair.encrypt_list {p q : ℕ} {sk : PrivateKey}
    (h : ValidKeyPair p q sk) :
    ∀ prs : List (Int × Int),
      (∀ x ∈ prs, 0 ≤ x.1 ∧ x.1 < sk.publicKey.n ∧
        encryptDraw sk.publicKey x.2) →
      ∃ cs : List Int,
        prs.mapM (fun x => sk.publicKey.encrypt x.1 x.2) = some cs ∧
        cs.length = prs.length ∧ (∀ c ∈ cs, 0 ≤ c) ∧
        Int.ModEq sk.publicKey.n2 cs.prod
          (sk.publicKey.g ^ (prs.map (fun x => x.1.toNat)).sum
            * (prs.map Prod.snd).prod ^ sk.publicKey.n.toNat) ∧
        Int.gcd (prs.map Prod.snd).prod sk.publicKey.n = 1 := by
  have hn1 := h.n_gt_one
  intro prs
  induction prs with
  | nil =>
    intro
    refine ⟨[], rfl, rfl, by simp, ?_, by simp⟩
    simp
  | cons x xs ih =>
    intro hmem
    obtain ⟨hm0, hmn, hdraw⟩ := hmem x (List.mem_cons_self x xs)
    obtain ⟨cs, hcs, hlen, hnn, hprod, hgcd⟩ :=
      ih (fun y hy => hmem y (List.mem_cons_of_mem x hy))
    obtain ⟨henc, hc0, hclt, hcmod⟩ := PublicKey.encrypt_eq hn1 hm0 x.2
    refine ⟨(sk.publicKey.g ^ x.1.toNat % sk.publicKey.n2)
        * (x.2 ^ sk.publicKey.n.toNat % sk.publicKey.n2) % sk.publicKey.n2
        :: cs, ?_, by simp [hlen], ?_, ?_, ?_⟩
    · rw [List.mapM_cons, henc, hcs]
      rfl
    · intro c hc
      rcases List.mem_cons.mp hc with rfl | hc'
      · exact hc0
      · exact hnn c hc'
    · simp only [List.prod_cons, List.map_cons, List.sum_cons]
      have hmul := hcmod.mul hprod
      refine hmul.trans ?_
      have heq : sk.publicKey.g ^ x.1.toNat * x.2 ^ sk.publicKey.n.toNat
          * (sk.publicKey.g ^ (xs.map (fun x => x.1.toNat)).sum
            * (xs.map Prod.snd).prod ^ sk.publicKey.n.toNat)
          = sk.publicKey.g ^ (x.1.toNat + (xs.map (fun x => x.1.toNat)).sum)
            * (x.2 * (xs.map Prod.snd).prod) ^ sk.publicKey.n.toNat := by
        rw [pow_add, mul_pow]
        ring
      rw [heq]
    · simp only [List.map_cons, List.prod_cons]
      have hr1 : Int.gcd x.2 sk.publicKey.n = 1 := by
        have h2 := hdraw.2
        rw [bcu.gcd_eq_gcd] at h2
        exact_mod_cast h2
      rw [← Int.isCoprime_iff_gcd_eq_one] at hr1 hgcd ⊢
      exact hr1.mul_left hgcd

/-- C2: for a valid key pair and `k ≥ 2` messages in `[0, n)` with their
random factors, the elementwise encryptions exist, `addition` returns
their product modulo `n²`, and decrypting that result yields the sum of
the messages modulo `n`. -/
theorem C2_addition_homomorphic (p q : ℕ) (sk : PrivateKey)
    (h : ValidKeyPair p q sk) (prs : List (Int × Int))
    (hlen : 2 ≤ prs.length)
    (hprs : ∀ x ∈ prs, 0 ≤ x.1 ∧ x.1 < sk.publicKey.n ∧
      encryptDraw sk.publicKey x.2) :
    ∃ cs : List Int,
      prs.mapM (fun x => sk.publicKey.encrypt x.1 x.2) = some cs ∧
      sk.publicKey.addition cs = cs.prod % sk.publicKey.n2 ∧
      sk.decrypt (sk.publicKey.addition cs)
        = some ((prs.map Prod.fst).sum % sk.publicKey.n) := by
  obtain ⟨cs, hcs, hlen', hnn, hprod, hgcd⟩ := h.encrypt_list prs hprs
  have hne : cs ≠ [] := by
    intro h0
    rw [h0] at hlen'
    simp at hlen'
    omega
  have hadd : sk.publicKey.addition cs = cs.prod % sk.publicKey.n2 :=
    PublicKey.addition_eq_prod (by have := h.n2_gt_one; omega) hne hnn
  refine ⟨cs, hcs, hadd, ?_⟩
  rw [hadd]
  have hmod : Int.ModEq sk.publicKey.n2 (cs.prod % sk.publicKey.n2)
      (sk.publicKey.g ^ (prs.map (fun x => x.1.toNat)).sum
        * (prs.map Prod.snd).prod ^ sk.publicKey.n.toNat) :=
    (Int.emod_emod_of_dvd _ dvd_rfl).trans hprod
  rw [h.master_decrypt hgcd hmod]
  congr 1
  rw [sum_toNat_cast prs (fun x hx => (hprs x hx).1)]

/-- Witness for C2: the 11·13 key with messages 5 and 9, random factors
2 and 3. -/
theorem C2_witness :
    ValidKeyPair 11 13 sk11 ∧ 2 ≤ ([(5, 2), (9, 3)] : List (Int × Int)).length ∧
    (∃ cs : List Int,
      ([(5, 2), (9, 3)] : List (Int × Int)).mapM
        (fun x => sk11.publicKey.encrypt x.1 x.2) = some cs ∧
      sk11.publicKey.addition cs = cs.prod % sk11.publicKey.n2 ∧
      sk11.decrypt (sk11.publicKey.addition cs)
        = some ((([(5, 2), (9, 3)] : List (Int × Int)).map Prod.fst).sum
            % sk11.publicKey.n)) :=
  have hv : ValidKeyPair 11 13 sk11 :=
    (keysFromPrimesSimple_valid (by norm_num) (by norm_num) (by norm_num)
      (by decide)).1
  ⟨hv, by decide,
    C2_addition_homomorphic 11 13 sk11 hv [(5, 2), (9, 3)] (by decide)
      (by decide)⟩


/-- A ciphertext congruent to `g^M · R^n` is coprime to `n` and to `n²`. -/
theorem ValidKeyPair.cipher_coprime {p q : ℕ} {sk : PrivateKey}
    (h : ValidKeyPair p q sk) {c : Int} {M : ℕ}
    {R : Int} (hR : Int.gcd R sk.publicKey.n = 1)
    (hc : Int.ModEq sk.publicKey.n2 c
      (sk.publicKey.g ^ M * R ^ sk.publicKey.n.toNat)) :
    Int.gcd c sk.publicKey.n = 1 ∧ Int.gcd c sk.publicKey.n2 = 1 := by
  have hcn : Int.ModEq sk.publicKey.n c
      (sk.publicKey.g ^ M * R ^ sk.publicKey.n.toNat) :=
    hc.of_dvd h.n_dvd_n2
  have hco : Int.gcd (sk.publicKey.g ^ M * R ^ sk.publicKey.n.toNat)
      sk.publicKey.n = 1 := by
    rw [← Int.isCoprime_iff_gcd_eq_one]
    have h1 : IsCoprime sk.publicKey.g sk.publicKey.n :=
      Int.isCoprime_iff_gcd_eq_one.mpr h.hgco
    have h2 : IsCoprime R sk.publicKey.n :=
      Int.isCoprime_iff_gcd_eq_one.mpr hR
    exact (h1.pow_left).mul_left (h2.pow_left)
  have hgcd1 : Int.gcd c sk.publicKey.n = 1 := by
    rw [bcu.gcd_modEq_left hcn, hco]
  refine ⟨hgcd1, ?_⟩
  show Int.gcd c sk.publicKey.n2 = 1
  have habs : sk.publicKey.n2.natAbs = sk.publicKey.n.natAbs ^ 2 := by
    show (sk.publicKey.n ^ 2).natAbs = sk.publicKey.n.natAbs ^ 2
    exact Int.natAbs_pow sk.publicKey.n 2
  unfold Int.gcd at hgcd1 ⊢
  rw [habs]
  exact Nat.Coprime.pow_right 2 hgcd1

/-- C3: for a valid key pair, a message `0 ≤ m < n` encrypted with a
drawable `r`, and any integer scalar `k`, `multiply` returns `c^k mod n²`
(the canonical power for `k ≥ 0`, the canonical modular inverse of
`c^|k| mod n²` for `k < 0`), and decrypting the result yields
`(k·m) mod n`. -/
theorem C3_multiply_scalar (p q : ℕ) (sk : PrivateKey)
    (h : ValidKeyPair p q sk) (m r : Int) (hm0 : 0 ≤ m)
    (_hmn : m < sk.publicKey.n) (hr : encryptDraw sk.publicKey r) (k : Int) :
    ∃ c v : Int,
      sk.publicKey.encrypt m r = some c ∧
      sk.publicKey.multiply c k = some v ∧
      sk.decrypt v = some ((k * m) % sk.publicKey.n) ∧
      (0 ≤ k → v = c ^ k.toNat % sk.publicKey.n2) ∧
      (k < 0 → 0 ≤ v ∧ v < sk.publicKey.n2 ∧
        (c ^ (-k).toNat * v) % sk.publicKey.n2 = 1 % sk.publicKey.n2) := by
  have hn1 := h.n_gt_one
  have hN1 := h.n2_gt_one
  obtain ⟨henc, hc0, hclt, hcmod⟩ := PublicKey.encrypt_eq hn1 hm0 r
  have hrg : Int.gcd r sk.publicKey.n = 1 := by
    have h2 := hr.2
    rw [bcu.gcd_eq_gcd] at h2
    exact_mod_cast h2
  obtain ⟨hgcd_n, hgcd_N⟩ := h.cipher_coprime hrg hcmod
  set c := (sk.publicKey.g ^ m.toNat % sk.publicKey.n2)
    * (r ^ sk.publicKey.n.toNat % sk.publicKey.n2) % sk.publicKey.n2 with hcdef
  have hmcast : ((m.toNat : ℕ) : Int) = m := Int.toNat_of_nonneg hm0
  by_cases hk : 0 ≤ k
  · -- nonnegative scalar
    have hmul : sk.publicKey.multiply c k
        = some (c ^ k.toNat % sk.publicKey.n2) := by
      unfold PublicKey.multiply
      exact bcu.modPow_eq (by omega) hk (Or.inl hN1) c
    refine ⟨c, c ^ k.toNat % sk.publicKey.n2, henc, hmul, ?_, fun _ => rfl,
      fun hneg => absurd hneg (not_lt.mpr hk)⟩
    have hvmod : Int.ModEq sk.publicKey.n2 (c ^ k.toNat % sk.publicKey.n2)
        (sk.publicKey.g ^ (m.toNat * k.toNat)
          * (r ^ k.toNat) ^ sk.publicKey.n.toNat) := by
      have h1 : Int.ModEq sk.publicKey.n2 (c ^ k.toNat)
          ((sk.publicKey.g ^ m.toNat * r ^ sk.publicKey.n.toNat) ^ k.toNat) :=
        hcmod.pow k.toNat
      have h2 : (sk.publicKey.g ^ m.toNat * r ^ sk.publicKey.n.toNat) ^ k.toNat
          = sk.publicKey.g ^ (m.toNat * k.toNat)
            * (r ^ k.toNat) ^ sk.publicKey.n.toNat := by
        rw [mul_pow, ← pow_mul, pow_right_comm r]
      exact (Int.emod_emod_of_dvd _ dvd_rfl).trans (h2 ▸ h1)
    have hrk : Int.gcd (r ^ k.toNat) sk.publicKey.n = 1 := by
      rw [← Int.isCoprime_iff_gcd_eq_one] at hrg ⊢
      exact hrg.pow_left
    rw [h.master_decrypt hrk hvmod]
    congr 1
    have hcast : ((m.toNat * k.toNat : ℕ) : Int) = k * m := by
      push_cast
      rw [hmcast, Int.toNat_of_nonneg hk]
      ring
    rw [hcast]
  · -- negative scalar
    push_neg at hk
    have hkcast : (((-k).toNat : ℕ) : Int) = -k := by omega
    have hpowpos : bcu.modPow c (-k) sk.publicKey.n2
        = some (c ^ (-k).toNat % sk.publicKey.n2) :=
      bcu.modPow_eq (by omega) (by omega) (Or.inl hN1) c
    have hgcd_pow : Int.gcd (c ^ (-k).toNat % sk.publicKey.n2)
        sk.publicKey.n2 = 1 := by
      rw [bcu.gcd_emod_left]
      rw [← Int.isCoprime_iff_gcd_eq_one] at hgcd_N ⊢
      exact hgcd_N.pow_left
    obtain ⟨v, hv, hv0, hvlt, hvinv⟩ := bcu.modInv_of_gcd_one hN1 hgcd_pow
    have hmul : sk.publicKey.multiply c k = some v := by
      unfold PublicKey.multiply
      rw [bcu.modPow_neg_exp (by omega) hk c, hpowpos]
      exact hv
    have hinv' : (c ^ (-k).toNat * v) % sk.publicKey.n2
        = 1 % sk.publicKey.n2 := by
      have h0 : Int.ModEq sk.publicKey.n2 (c ^ (-k).toNat)
          (c ^ (-k).toNat % sk.publicKey.n2) :=
        (Int.emod_emod_of_dvd _ dvd_rfl).symm
      have h1 := h0.mul_right v
      exact h1.trans hvinv
    refine ⟨c, v, henc, hmul, ?_, fun hge => absurd hk (not_lt.mpr hge),
      fun _ => ⟨hv0, hvlt, hinv'⟩⟩
    -- decryption of the modular inverse
    have hcl := h.enc_pow hrg hcmod
    have hBl : Int.ModEq sk.publicKey.n2 ((c ^ (-k).toNat) ^ sk.lambda.toNat)
        (1 + ((-k).toNat : Int) * ((m.toNat : Int) * gLval sk)
          * sk.publicKey.n) := by
      have h1 : (c ^ (-k).toNat) ^ sk.lambda.toNat
          = (c ^ sk.lambda.toNat) ^ (-k).toNat := pow_right_comm c _ _
      rw [h1]
      refine (hcl.pow (-k).toNat).trans ?_
      have h2 := binomMod sk.publicKey.n ((m.toNat : Int) * gLval sk) (-k).toNat
      rw [← h.n2_eq] at h2
      refine Int.ModEq.trans ?_ h2
      apply Int.modEq_of_dvd
      refine ⟨0, ?_⟩
      have h3 : ((m.toNat : Int) * gLval sk) * sk.publicKey.n
          = (m.toNat : Int) * gLval sk * sk.publicKey.n := by ring
      ring
    have hABl : Int.ModEq sk.publicKey.n2
        (v ^ sk.lambda.toNat * (c ^ (-k).toNat) ^ sk.lambda.toNat) 1 := by
      have h1 : Int.ModEq sk.publicKey.n2 (c ^ (-k).toNat * v) 1 := by
        have hone : (1 : Int) % sk.publicKey.n2 = 1 :=
          Int.emod_eq_of_lt (by omega) hN1
        show (c ^ (-k).toNat * v) % sk.publicKey.n2 = 1 % sk.publicKey.n2
        exact hinv'
      have h2 := h1.pow sk.lambda.toNat
      rw [mul_pow, one_pow] at h2
      calc v ^ sk.lambda.toNat * (c ^ (-k).toNat) ^ sk.lambda.toNat
          = (c ^ (-k).toNat) ^ sk.lambda.toNat * v ^ sk.lambda.toNat := by
            ring
        _ ≡ 1 [ZMOD sk.publicKey.n2] := h2
    have hinv_small : Int.ModEq sk.publicKey.n2
        ((1 + ((-k).toNat : Int) * ((m.toNat : Int) * gLval sk)
            * sk.publicKey.n)
          * (1 - ((-k).toNat : Int) * ((m.toNat : Int) * gLval sk)
            * sk.publicKey.n)) 1 := by
      apply Int.modEq_of_dvd
      refine ⟨(((-k).toNat : Int) * ((m.toNat : Int) * gLval sk)) ^ 2, ?_⟩
      rw [h.n2_eq]
      ring
    have hA1 : Int.ModEq sk.publicKey.n2
        (v ^ sk.lambda.toNat
          * (1 + ((-k).toNat : Int) * ((m.toNat : Int) * gLval sk)
            * sk.publicKey.n)) 1 :=
      (hBl.symm.mul_left (v ^ sk.lambda.toNat)).trans hABl
    have hvl : Int.ModEq sk.publicKey.n2 (v ^ sk.lambda.toNat)
        (1 + (-(((-k).toNat : Int) * ((m.toNat : Int) * gLval sk)))
          * sk.publicKey.n) := by
      have e0 : Int.ModEq sk.publicKey.n2 (v ^ sk.lambda.toNat)
          (v ^ sk.lambda.toNat
            * ((1 + ((-k).toNat : Int) * ((m.toNat : Int) * gLval sk)
                * sk.publicKey.n)
              * (1 - ((-k).toNat : Int) * ((m.toNat : Int) * gLval sk)
                * sk.publicKey.n))) := by
        have h0 := (hinv_small.symm).mul_left (v ^ sk.lambda.toNat)
        rwa [mul_one] at h0
      calc v ^ sk.lambda.toNat
          ≡ v ^ sk.lambda.toNat
            * ((1 + ((-k).toNat : Int) * ((m.toNat : Int) * gLval sk)
                * sk.publicKey.n)
              * (1 - ((-k).toNat : Int) * ((m.toNat : Int) * gLval sk)
                * sk.publicKey.n)) [ZMOD sk.publicKey.n2] := e0
        _ = (v ^ sk.lambda.toNat
              * (1 + ((-k).toNat : Int) * ((m.toNat : Int) * gLval sk)
                * sk.publicKey.n))
            * (1 - ((-k).toNat : Int) * ((m.toNat : Int) * gLval sk)
              * sk.publicKey.n) := by ring
        _ ≡ 1 * (1 - ((-k).toNat : Int) * ((m.toNat : Int) * gLval sk)
              * sk.publicKey.n) [ZMOD sk.publicKey.n2] := hA1.mul_right _
        _ = 1 + (-(((-k).toNat : Int) * ((m.toNat : Int) * gLval sk)))
            * sk.publicKey.n := by ring
    rw [h.decrypt_core hvl]
    congr 1
    have hmu : Int.ModEq sk.publicKey.n (gLval sk * sk.mu) 1 := h.gLval_mu
    have e1 : -(((-k).toNat : Int) * ((m.toNat : Int) * gLval sk)) * sk.mu
        = (-(((-k).toNat : Int) * (m.toNat : Int))) * (gLval sk * sk.mu) := by
      ring
    have e2 := hmu.mul_left (-(((-k).toNat : Int) * (m.toNat : Int)))
    calc (-(((-k).toNat : Int) * ((m.toNat : Int) * gLval sk)) * sk.mu)
          % sk.publicKey.n
        = ((-(((-k).toNat : Int) * (m.toNat : Int))) * (gLval sk * sk.mu))
          % sk.publicKey.n := by rw [e1]
      _ = ((-(((-k).toNat : Int) * (m.toNat : Int))) * 1) % sk.publicKey.n :=
          e2
      _ = (k * m) % sk.publicKey.n := by
          rw [mul_one, hkcast, hmcast]
          ring_nf

/-- Witness for C3: the 11·13 key, message 5, random factor 2,
scalar 4. -/
theorem C3_witness :
    ValidKeyPair 11 13 sk11 ∧ (0 : Int) ≤ 5 ∧ (5 : Int) < sk11.publicKey.n ∧
    encryptDraw sk11.publicKey 2 ∧
    (∃ c v : Int,
      sk11.publicKey.encrypt 5 2 = some c ∧
      sk11.publicKey.multiply c 4 = some v ∧
      sk11.decrypt v = some ((4 * 5) % sk11.publicKey.n) ∧
      ((0 : Int) ≤ 4 → v = c ^ (4 : Int).toNat % sk11.publicKey.n2) ∧
      ((4 : Int) < 0 → 0 ≤ v ∧ v < sk11.publicKey.n2 ∧
        (c ^ (-(4 : Int)).toNat * v) % sk11.publicKey.n2
          = 1 % sk11.publicKey.n2)) :=
  have hv : ValidKeyPair 11 13 sk11 :=
    (keysFromPrimesSimple_valid (by norm_num) (by norm_num) (by norm_num)
      (by decide)).1
  ⟨hv, by decide, by decide, by decide,
    C3_multiply_scalar 11 13 sk11 hv 5 2 (by decide) (by decide) (by decide) 4⟩

/-- C4: for every simple-variant key pair produced by
`keysFromPrimesSimple` over distinct primes, a message `0 ≤ m < n` and
every integer random factor `r` coprime to `n` (as computed by the
embedded binary gcd), decryption recovers `m` and `getRandomFactor`
recovers `r mod n` from the ciphertext. -/
theorem C4_getRandomFactor_recovers (p q : ℕ) (hp : p.Prime) (hq : q.Prime)
    (hpq : p ≠ q) (sk : PrivateKey)
    (hk : keysFromPrimesSimple (p : Int) (q : Int) = some sk)
    (m r : Int) (hm0 : 0 ≤ m) (hmn : m < sk.publicKey.n)
    (hr : bcu.gcd r sk.publicKey.n = 1) :
    ∃ c, sk.publicKey.encrypt m r = some c ∧
      sk.decrypt c = some m ∧
      sk.getRandomFactor c = Except.ok (r % sk.publicKey.n) := by
  obtain ⟨hvalid, hskn, hskg, hsklam, hskp, hskq, hminv⟩ :=
    keysFromPrimesSimple_valid hp hq hpq hk
  have hn1 := hvalid.n_gt_one
  have hN1 := hvalid.n2_gt_one
  have hp2 : 2 ≤ p := hp.two_le
  have hq2 : 2 ≤ q := hq.two_le
  obtain ⟨henc, hc0, hclt, hcmod⟩ := PublicKey.encrypt_eq hn1 hm0 r
  have hrg : Int.gcd r sk.publicKey.n = 1 := by
    have h2 := hr
    rw [bcu.gcd_eq_gcd] at h2
    exact_mod_cast h2
  set c := (sk.publicKey.g ^ m.toNat % sk.publicKey.n2)
    * (r ^ sk.publicKey.n.toNat % sk.publicKey.n2) % sk.publicKey.n2
    with hcdef
  have hmcast : ((m.toNat : ℕ) : Int) = m := Int.toNat_of_nonneg hm0
  have hdec : sk.decrypt c = some m := by
    rw [hvalid.master_decrypt hrg hcmod, hmcast, Int.emod_eq_of_lt hm0 hmn]
  refine ⟨c, henc, hdec, ?_⟩
  -- the phi used by getRandomFactor and its relation to the totient
  have hphiI : ((((p - 1) * (q - 1) : ℕ) : ℕ) : Int)
      = ((p : Int) - 1) * ((q : Int) - 1) := by
    push_cast [Nat.cast_sub hp.one_le, Nat.cast_sub hq.one_le]
    ring
  have h3 : 3 ≤ p ∨ 3 ≤ q := by omega
  have hphiN2 : 1 < (p - 1) * (q - 1) := by
    rcases h3 with h | h
    · calc 1 < 2 * 1 := by norm_num
        _ ≤ (p - 1) * (q - 1) := Nat.mul_le_mul (by omega) (by omega)
    · calc 1 < 1 * 2 := by norm_num
        _ ≤ (p - 1) * (q - 1) := Nat.mul_le_mul (by omega) (by omega)
  have hphi2 : (1 : Int) < ((p : Int) - 1) * ((q : Int) - 1) := by
    rw [← hphiI]
    exact_mod_cast hphiN2
  -- gcd(n, phi) = 1 because mu = lambda⁻¹ mod n exists and lambda = phi
  have hgphi : Int.gcd sk.publicKey.n
      (((p : Int) - 1) * ((q : Int) - 1)) = 1 := by
    obtain ⟨-, hg1, -, -, -⟩ := bcu.modInv_spec hminv
    rw [hsklam] at hg1
    rw [Int.gcd_comm]
    exact hg1
  obtain ⟨d, hd, hd0, hdlt, hdinv⟩ := bcu.modInv_of_gcd_one hphi2 hgphi
  -- evaluate getRandomFactor along the success path
  unfold PrivateKey.getRandomFactor
  have hgn : sk.publicKey.g = sk.n + 1 := by
    show sk.publicKey.g = sk.publicKey.n + 1
    rw [hskg, hskn]
  rw [if_neg (fun hh => hh hgn), hdec, hskp, hskq]
  show (match bcu.modInv sk.publicKey.n (((p : Int) - 1) * ((q : Int) - 1)) with
    | none => Except.error RFError.arithError
    | some nInvModPhi =>
      match bcu.modPow
          (Int.tmod (c * (1 - m * sk.publicKey.n)) sk.publicKey.n2)
          nInvModPhi sk.publicKey.n with
      | none => Except.error RFError.arithError
      | some rv => Except.ok rv)
    = Except.ok (r % sk.publicKey.n)
  rw [hd]
  show (match bcu.modPow
      (Int.tmod (c * (1 - m * sk.publicKey.n)) sk.publicKey.n2)
      d sk.publicKey.n with
    | none => Except.error RFError.arithError
    | some rv => Except.ok rv) = Except.ok (r % sk.publicKey.n)
  rw [bcu.modPow_eq (by omega) hd0 (Or.inl hn1)]
  show Except.ok ((Int.tmod (c * (1 - m * sk.publicKey.n))
      sk.publicKey.n2) ^ d.toNat % sk.publicKey.n)
    = Except.ok (r % sk.publicKey.n)
  -- it remains to show the computed value is r mod n
  congr 1
  -- c1 is congruent to r^n modulo n
  have hc1N : Int.ModEq sk.publicKey.n2
      (Int.tmod (c * (1 - m * sk.publicKey.n)) sk.publicKey.n2)
      (r ^ sk.publicKey.n.toNat) := by
    have e1 : Int.ModEq sk.publicKey.n2
        (Int.tmod (c * (1 - m * sk.publicKey.n)) sk.publicKey.n2)
        (c * (1 - m * sk.publicKey.n)) := bcu.tmod_emod _ _
    have e2 : Int.ModEq sk.publicKey.n2 (c * (1 - m * sk.publicKey.n))
        ((sk.publicKey.g ^ m.toNat * r ^ sk.publicKey.n.toNat)
          * (1 - m * sk.publicKey.n)) := hcmod.mul_right _
    have hgm : Int.ModEq sk.publicKey.n2 (sk.publicKey.g ^ m.toNat)
        (1 + m * sk.publicKey.n) := by
      have hb := binomMod sk.publicKey.n 1 m.toNat
      rw [← hvalid.n2_eq] at hb
      have hgeq : sk.publicKey.g = 1 + 1 * sk.publicKey.n := by
        rw [hskg, hskn]; ring
      rw [hgeq]
      refine hb.trans ?_
      apply Int.modEq_of_dvd
      refine ⟨0, ?_⟩
      rw [hmcast]
      ring
    have e3 : Int.ModEq sk.publicKey.n2
        ((sk.publicKey.g ^ m.toNat * r ^ sk.publicKey.n.toNat)
          * (1 - m * sk.publicKey.n))
        (((1 + m * sk.publicKey.n) * r ^ sk.publicKey.n.toNat)
          * (1 - m * sk.publicKey.n)) :=
      (hgm.mul_right (r ^ sk.publicKey.n.toNat)).mul_right _
    have e4 : Int.ModEq sk.publicKey.n2
        (((1 + m * sk.publicKey.n) * r ^ sk.publicKey.n.toNat)
          * (1 - m * sk.publicKey.n)) (r ^ sk.publicKey.n.toNat) := by
      apply Int.modEq_of_dvd
      refine ⟨m ^ 2 * r ^ sk.publicKey.n.toNat, ?_⟩
      rw [hvalid.n2_eq]
      ring
    exact ((e1.trans e2).trans e3).trans e4
  have hc1n : Int.ModEq sk.publicKey.n
      (Int.tmod (c * (1 - m * sk.publicKey.n)) sk.publicKey.n2)
      (r ^ sk.publicKey.n.toNat) := hc1N.of_dvd hvalid.n_dvd_n2
  -- the exponent n·d is 1 modulo the totient of n
  have hphin : Nat.totient (p * q) = (p - 1) * (q - 1) := by
    rw [Nat.totient_mul ((Nat.coprime_primes hp hq).mpr hpq),
      Nat.totient_prime hp, Nat.totient_prime hq]
  have hndNat : (sk.publicKey.n.toNat * d.toNat) % ((p - 1) * (q - 1))
      = 1 % ((p - 1) * (q - 1)) := by
    have hcastn : ((sk.publicKey.n.toNat : ℕ) : Int) = sk.publicKey.n :=
      Int.toNat_of_nonneg (by omega)
    have hcastd : ((d.toNat : ℕ) : Int) = d := Int.toNat_of_nonneg hd0
    have h1 : ((((sk.publicKey.n.toNat * d.toNat) % ((p - 1) * (q - 1)) : ℕ))
        : Int) = (((1 % ((p - 1) * (q - 1)) : ℕ)) : Int) := by
      rw [Int.natCast_mod, Int.natCast_mod]
      push_cast [hcastn, hcastd]
      rw [Nat.cast_sub hp.one_le, Nat.cast_sub hq.one_le, Nat.cast_one]
      exact hdinv
    exact_mod_cast h1
  have hone : 1 % ((p - 1) * (q - 1)) = 1 := Nat.mod_eq_of_lt hphiN2
  -- Euler: r^phi ≡ 1 (mod n) over the integers, for every r coprime to
  -- n, by passing to the canonical representative r % n in [0, n)
  have hrmod : Int.ModEq sk.publicKey.n (r % sk.publicKey.n) r :=
    Int.emod_emod_of_dvd r dvd_rfl
  have hr0 : 0 ≤ r % sk.publicKey.n := Int.emod_nonneg r (by omega)
  have hrg' : Int.gcd (r % sk.publicKey.n) sk.publicKey.n = 1 := by
    rw [bcu.gcd_emod_left]
    exact hrg
  have hrtot : Int.ModEq sk.publicKey.n (r ^ ((p - 1) * (q - 1))) 1 := by
    have hrco : Nat.Coprime (r % sk.publicKey.n).toNat (p * q) := by
      have h2 : Int.gcd (r % sk.publicKey.n) ((p : Int) * q) = 1 := by
        rw [← hskn]; exact hrg'
      have h3 : (r % sk.publicKey.n).natAbs = (r % sk.publicKey.n).toNat := by
        omega
      have h4 : ((p : Int) * q).natAbs = p * q := by
        rw [show ((p : Int) * q) = ((p * q : ℕ) : Int) by push_cast; ring]
        exact Int.natAbs_ofNat _
      unfold Int.gcd at h2
      rw [h3, h4] at h2
      exact h2
    have h5 := Nat.ModEq.pow_totient hrco
    rw [hphin] at h5
    have h6 : ((((r % sk.publicKey.n).toNat ^ ((p - 1) * (q - 1))
        % (p * q) : ℕ)) : Int) = (((1 % (p * q) : ℕ)) : Int) := by
      exact_mod_cast h5
    rw [Int.natCast_mod, Int.natCast_mod] at h6
    push_cast [Int.toNat_of_nonneg hr0] at h6
    have h7 : Int.ModEq sk.publicKey.n
        ((r % sk.publicKey.n) ^ ((p - 1) * (q - 1))) 1 := by
      show (r % sk.publicKey.n) ^ ((p - 1) * (q - 1)) % sk.publicKey.n
        = 1 % sk.publicKey.n
      rw [← hskn] at h6
      exact h6
    exact (hrmod.symm.pow _).trans h7
  -- assemble: c1^d ≡ r (mod n)
  have hfinal : Int.ModEq sk.publicKey.n
      ((Int.tmod (c * (1 - m * sk.publicKey.n)) sk.publicKey.n2) ^ d.toNat)
      r := by
    have h1 := hc1n.pow d.toNat
    rw [← pow_mul] at h1
    obtain ⟨t, ht⟩ : ∃ t, sk.publicKey.n.toNat * d.toNat
        = (p - 1) * (q - 1) * t + 1 := by
      refine ⟨sk.publicKey.n.toNat * d.toNat / ((p - 1) * (q - 1)), ?_⟩
      have hdm := Nat.div_add_mod (sk.publicKey.n.toNat * d.toNat)
        ((p - 1) * (q - 1))
      rw [hndNat, hone] at hdm
      omega
    rw [ht] at h1
    refine h1.trans ?_
    have h2 : r ^ ((p - 1) * (q - 1) * t + 1)
        = (r ^ ((p - 1) * (q - 1))) ^ t * r := by
      rw [pow_add, pow_mul, pow_one]
    rw [h2]
    have h3 := (hrtot.pow t).mul_right r
    rw [one_pow, one_mul] at h3
    exact h3
  exact hfinal

/-- Witness for C4: primes 11 and 13, message 7, random factor 2 (the
concrete scenario) and also the out-of-range factor `-141 ≡ 2 (mod 143)`;
checks the concrete key values `n = 143`, `g = 144`, `lambda = 120`,
`mu = 87` and the recovered factor `2` in both cases. -/
theorem C4_witness :
    Nat.Prime 11 ∧ Nat.Prime 13 ∧ (11 : ℕ) ≠ 13 ∧
    keysFromPrimesSimple ((11 : ℕ) : Int) ((13 : ℕ) : Int) = some sk11 ∧
    sk11.publicKey.n = 143 ∧ sk11.publicKey.g = 144 ∧ sk11.lambda = 120 ∧
    sk11.mu = 87 ∧ (2 : Int) % sk11.publicKey.n = 2 ∧
    (0 : Int) ≤ 7 ∧ (7 : Int) < sk11.publicKey.n ∧
    bcu.gcd 2 sk11.publicKey.n = 1 ∧
    bcu.gcd (-141) sk11.publicKey.n = 1 ∧
    (-141 : Int) % sk11.publicKey.n = 2 ∧
    (∃ c, sk11.publicKey.encrypt 7 2 = some c ∧
      sk11.decrypt c = some 7 ∧
      sk11.getRandomFactor c = Except.ok (2 % sk11.publicKey.n)) ∧
    (∃ c, sk11.publicKey.encrypt 7 (-141) = some c ∧
      sk11.decrypt c = some 7 ∧
      sk11.getRandomFactor c = Except.ok ((-141) % sk11.publicKey.n)) :=
  ⟨by norm_num, by norm_num, by norm_num, by decide, by decide, by decide,
    by decide, by decide, by decide, by decide, by decide, by decide,
    by decide, by decide,
    C4_getRandomFactor_recovers 11 13 (by norm_num) (by norm_num)
      (by norm_num) sk11 (by decide) 7 2 (by decide) (by decide) (by decide),
    C4_getRandomFactor_recovers 11 13 (by norm_num) (by norm_num)
      (by norm_num) sk11 (by decide) 7 (-141) (by decide) (by decide)
      (by decide)⟩

/-- Counterexample to C4 as stated: the claim asserts `mu = 24` for
`p = 11`, `q = 13`, but `keysFromPrimesSimple(11, 13)` computes
`mu = modInv(120, 143) = 87`, and `120 * 24 mod 143 = 20 ≠ 1`. -/
theorem C4_counterexample :
    (keysFromPrimesSimple ((11 : ℕ) : Int) ((13 : ℕ) : Int)).map
      PrivateKey.mu = some 87 ∧
    (87 : Int) ≠ 24 ∧ (120 * 24 : Int) % 143 = 20 ∧
    (120 * 87 : Int) % 143 = 1 := by decide

/-- C6 (amended): with `g ≠ n + 1`, `getRandomFactor` throws the
deliberate `RangeError` (the InvalidState failure the spec describes);
but when `g = n + 1` and `p` or `q` is absent it instead crashes with a
`TypeError` from the `null` arithmetic in `(this._p - 1n)`, not with the
InvalidState error. -/
theorem C6_getRandomFactor_errors (sk : PrivateKey) (c : Int) :
    (sk.publicKey.g ≠ sk.n + 1 →
      sk.getRandomFactor c = Except.error RFError.invalidStateRange) ∧
    (sk.publicKey.g = sk.n + 1 → (sk.p = none ∨ sk.q = none) →
      (sk.decrypt c).isSome = true →
      sk.getRandomFactor c = Except.error RFError.typeErrorNullArith) := by
  constructor
  · intro hg
    unfold PrivateKey.getRandomFactor
    rw [if_pos hg]
  · intro hg hpq hdec
    obtain ⟨mv, hm⟩ := Option.isSome_iff_exists.mp hdec
    unfold PrivateKey.getRandomFactor
    rw [if_neg (fun hh => hh hg), hm]
    show (match sk.p, sk.q with
      | some pv, some qv =>
        match bcu.modInv sk.n ((pv - 1) * (qv - 1)) with
        | none => Except.error RFError.arithError
        | some nInvModPhi =>
          match bcu.modPow (Int.tmod (c * (1 - mv * sk.n)) sk.publicKey.n2)
              nInvModPhi sk.n with
          | none => Except.error RFError.arithError
          | some r => Except.ok r
      | _, _ => Except.error RFError.typeErrorNullArith) =
      Except.error RFError.typeErrorNullArith
    rcases hpq with h | h
    · rw [h]
    · rw [h]
      cases sk.p with
      | none => rfl
      | some pv => rfl

/-- Witness for C6: a key with `g = 5 ≠ 144` throws the RangeError, and
the 11·13 key with `p` removed reaches the `null` arithmetic. -/
theorem C6_witness :
    skWrongG.publicKey.g ≠ skWrongG.n + 1 ∧
    skWrongG.getRandomFactor 7 = Except.error RFError.invalidStateRange ∧
    sk11NoP.publicKey.g = sk11NoP.n + 1 ∧
    (sk11NoP.p = none ∨ sk11NoP.q = none) ∧
    (sk11NoP.decrypt 2).isSome = true ∧
    sk11NoP.getRandomFactor 2 = Except.error RFError.typeErrorNullArith :=
  ⟨by decide, (C6_getRandomFactor_errors skWrongG 7).1 (by decide),
    by decide, by decide, by decide,
    (C6_getRandomFactor_errors sk11NoP 2).2 (by decide) (by decide)
      (by decide)⟩

/-- Counterexample to C6 as stated: on a key with `g = n + 1` but `p`
absent, `getRandomFactor` fails with the `TypeError` kind, not the
InvalidState kind the spec promises for incomplete keys. -/
theorem C6_counterexample :
    sk11NoP.getRandomFactor 2 = Except.error RFError.typeErrorNullArith ∧
    RFError.typeErrorNullArith ≠ RFError.invalidStateRange := by decide

set_option maxHeartbeats 2000000 in
theorem firstPrimes_prime : ∀ x ∈ firstPrimes, Nat.Prime x := by
  simp only [firstPrimes, List.forall_mem_cons, List.forall_mem_nil]
  refine ⟨?_, ?_⟩ <;> norm_num

theorem firstPrimes_ge_three : ∀ x ∈ firstPrimes, 3 ≤ x := by decide

theorem firstPrimes_sorted : firstPrimes.Pairwise (· < ·) := by decide

theorem prefilterLoop_divides :
    ∀ {l : List Nat}, (∀ x ∈ l, Nat.Prime x) → l.Pairwise (· < ·) →
    ∀ {w : Int}, 0 < w → (∃ x ∈ l, (x : Int) ∣ w ∧ w ≠ (x : Int)) →
    prefilterLoop l w = some false := by
  intro l
  induction l with
  | nil =>
    intro _ _ w _ hex
    obtain ⟨x, hx, -⟩ := hex
    cases hx
  | cons pp ps ih =>
    intro hall hsort w hw hex
    obtain ⟨x, hx, hdvd, hne⟩ := hex
    have hxw : (x : Int) ≤ w := Int.le_of_dvd hw hdvd
    have hple : (pp : Int) ≤ w := by
      rcases List.mem_cons.mp hx with rfl | hx'
      · exact hxw
      · have h1 := (List.pairwise_cons.mp hsort).1 x hx'
        have h2 : (pp : Int) ≤ (x : Int) := by exact_mod_cast h1.le
        omega
    simp only [prefilterLoop]
    rw [if_pos hple]
    by_cases hwp : w = (pp : Int)
    · exfalso
      rcases List.mem_cons.mp hx with rfl | hx'
      · exact hne hwp
      · have hxp : x ∣ pp := by
          have hd2 : (x : Int) ∣ (pp : Int) := hwp ▸ hdvd
          exact_mod_cast hd2
        have hpx := (List.pairwise_cons.mp hsort).1 x hx'
        have hple2 := Nat.le_of_dvd
          (Nat.Prime.pos (hall pp (List.mem_cons_self pp ps))) hxp
        omega
    · rw [if_neg hwp]
      by_cases hdvdp : Int.tmod w (pp : Int) = 0
      · rw [if_pos hdvdp]
      · rw [if_neg hdvdp]
        refine ih (fun y hy => hall y (List.mem_cons_of_mem pp hy))
          (List.pairwise_cons.mp hsort).2 hw ?_
        rcases List.mem_cons.mp hx with rfl | hx'
        · exact absurd (Int.tmod_eq_zero_of_dvd hdvd) hdvdp
        · exact ⟨x, hx', hdvd, hne⟩

theorem prefilterLoop_mem :
    ∀ {l : List Nat}, (∀ x ∈ l, Nat.Prime x) → l.Pairwise (· < ·) →
    ∀ {x : Nat}, x ∈ l → prefilterLoop l ((x : ℕ) : Int) = some true := by
  intro l
  induction l with
  | nil => intro _ _ x hx; cases hx
  | cons pp ps ih =>
    intro hall hsort x hx
    simp only [prefilterLoop]
    rcases List.mem_cons.mp hx with rfl | hx'
    · rw [if_pos le_rfl, if_pos rfl]
    · have hpx := (List.pairwise_cons.mp hsort).1 x hx'
      rw [if_pos (by exact_mod_cast hpx.le)]
      rw [if_neg (by exact_mod_cast hpx.ne')]
      have hnd : ¬Int.tmod ((x : ℕ) : Int) ((pp : ℕ) : Int) = 0 := by
        intro hmod
        have hdvd : ((pp : ℕ) : Int) ∣ ((x : ℕ) : Int) :=
          Int.dvd_of_tmod_eq_zero hmod
        have hdvd' : pp ∣ x := by exact_mod_cast hdvd
        have hxprime := hall x (List.mem_cons_of_mem pp hx')
        have hpprime := hall pp (List.mem_cons_self pp ps)
        rcases hxprime.eq_one_or_self_of_dvd pp hdvd' with h | h
        · exact hpprime.one_lt.ne' h
        · omega
      rw [if_neg hnd]
      exact ih (fun y hy => hall y (List.mem_cons_of_mem pp hy))
        (List.pairwise_cons.mp hsort).2 hx'

theorem prefilterLoop_none :
    ∀ {l : List Nat} {w : Int}, (∀ x ∈ l, ¬(x : Int) ∣ w) →
    prefilterLoop l w = none := by
  intro l
  induction l with
  | nil => intro _ _; rfl
  | cons pp ps ih =>
    intro w hnd
    simp only [prefilterLoop]
    by_cases hple : (pp : Int) ≤ w
    · rw [if_pos hple]
      have hnp := hnd pp (List.mem_cons_self pp ps)
      have hne : ¬w = ((pp : ℕ) : Int) := fun h => hnp (by rw [h])
      rw [if_neg hne]
      rw [if_neg (fun h => hnp (Int.dvd_of_tmod_eq_zero h))]
      exact ih (fun y hy => hnd y (List.mem_cons_of_mem pp hy))
    · rw [if_neg hple]

/-- C8 (amended): for every nonnegative integer `w`, the prefilter
returns PRIME on `w = 2`, COMPOSITE on even `w ≠ 2` and on `w = 1`,
COMPOSITE when some listed prime divides `w` with `w` different from
that prime, PRIME when `w` equals a listed prime, and passes control to
Miller-Rabin otherwise.  (For negative `w` the trial-division loop never
runs, so the divisibility case fails there; see the counterexample.) -/
theorem C8_prefilter_spec (w : Int) (hw : 0 ≤ w) :
    (w = 2 → isProbablyPrimePrefilter w = some true) ∧
    (w ≠ 2 → Int.tmod w 2 = 0 ∨ w = 1 →
      isProbablyPrimePrefilter w = some false) ∧
    ((∃ x ∈ firstPrimes, (x : Int) ∣ w ∧ w ≠ (x : Int)) →
      isProbablyPrimePrefilter w = some false) ∧
    (∀ x ∈ firstPrimes, w = (x : Int) →
      isProbablyPrimePrefilter w = some true) ∧
    (w ≠ 2 → Int.tmod w 2 ≠ 0 → w ≠ 1 →
      (∀ x ∈ firstPrimes, ¬(x : Int) ∣ w) →
      isProbablyPrimePrefilter w = none) := by
  have hparity : Int.tmod w 2 = w % 2 := Int.tmod_eq_emod hw (by norm_num)
  refine ⟨?_, ?_, ?_, ?_, ?_⟩
  · intro h; subst h; rfl
  · intro h2 hev
    unfold isProbablyPrimePrefilter
    rw [if_neg h2, if_pos hev]
  · intro hex
    by_cases h2 : w = 2
    · exfalso
      obtain ⟨x, hx, hdvd, -⟩ := hex
      have hx3 : 3 ≤ x := firstPrimes_ge_three x hx
      have hxle : (x : Int) ≤ 2 := Int.le_of_dvd (by norm_num) (h2 ▸ hdvd)
      have hx3' : (3 : Int) ≤ (x : Int) := by exact_mod_cast hx3
      omega
    by_cases hev : Int.tmod w 2 = 0 ∨ w = 1
    · unfold isProbablyPrimePrefilter
      rw [if_neg h2, if_pos hev]
    · push_neg at hev
      unfold isProbablyPrimePrefilter
      rw [if_neg h2, if_neg (by
        intro hcon
        rcases hcon with hc | hc
        · exact hev.1 hc
        · exact hev.2 hc)]
      have hwodd : w % 2 ≠ 0 := by rw [← hparity]; exact hev.1
      have hwpos : 0 < w := by omega
      exact prefilterLoop_divides firstPrimes_prime firstPrimes_sorted
        hwpos hex
  · intro x hx hwx
    subst hwx
    have hx3 : 3 ≤ x := firstPrimes_ge_three x hx
    have hxodd : x % 2 = 1 := Nat.odd_iff.mp
      ((firstPrimes_prime x hx).odd_of_ne_two (by omega))
    unfold isProbablyPrimePrefilter
    rw [if_neg (by exact_mod_cast (by omega : x ≠ 2))]
    rw [if_neg (by
      intro hcon
      rcases hcon with hc | hc
      · rw [Int.tmod_eq_emod (by positivity) (by norm_num)] at hc
        omega
      · have hx1 : x = 1 := by exact_mod_cast hc
        omega)]
    exact prefilterLoop_mem firstPrimes_prime firstPrimes_sorted hx
  · intro h2 hodd h1 hnd
    unfold isProbablyPrimePrefilter
    rw [if_neg h2, if_neg (by
      intro hcon
      rcases hcon with hc | hc
      · exact hodd hc
      · exact h1 hc)]
    exact prefilterLoop_none hnd

/-- Witness for C8 at `w = 15` (divisible by the listed prime 3). -/
theorem C8_witness :
    (0 : Int) ≤ 15 ∧
    (3 ∈ firstPrimes ∧ ((3 : ℕ) : Int) ∣ (15 : Int) ∧
      (15 : Int) ≠ ((3 : ℕ) : Int)) ∧
    isProbablyPrimePrefilter 15 = some false :=
  ⟨by decide, ⟨by decide, by decide, by decide⟩,
    (C8_prefilter_spec 15 (by decide)).2.2.1
      ⟨3, by decide, by decide, by decide⟩⟩

/-- Counterexample to C8 as stated for every integer `w`: `3` divides
`-9` and `-9 ≠ 3`, yet the prefilter does not return COMPOSITE on `-9`;
it passes it to Miller-Rabin, because the loop guard `primes[i] <= w`
fails immediately for negative `w`. -/
theorem C8_counterexample :
    3 ∈ firstPrimes ∧ ((3 : ℕ) : Int) ∣ (-9 : Int) ∧
    (-9 : Int) ≠ ((3 : ℕ) : Int) ∧
    isProbablyPrimePrefilter (-9) = none := by decide
